import Mathlib

/-!
Verification of the floor-plan navigation backend
(graph builder, pathfinder, Johnson reweighter).

The Python sources build `networkx.Graph` objects (undirected, simple,
string-keyed) and call networkx algorithms.  The embedding below models a
networkx graph as a list of nodes plus a list of stored edges (each stored
once, in its insertion orientation, carrying an integer weight), and models
each networkx call the sources make (`add_node`, `add_edge`, `remove_node`,
`single_source_bellman_ford_path_length`, `shortest_path`,
`shortest_path_length`, `all_simple_paths`) by its documented algorithm.
Weights are embedded as integers (`ℤ`); the sources use Python floats,
on which they only ever add and compare weights, operations under which
`ℤ` is closed.
-/

namespace FloorNav

instance {ε α : Type} [DecidableEq ε] [DecidableEq α] : DecidableEq (Except ε α) := fun x y =>
  match x, y with
  | .error a, .error b =>
    if h : a = b then .isTrue (congrArg Except.error h)
    else .isFalse (fun hc => h (Except.error.inj hc))
  | .error _, .ok _ => .isFalse (fun hc => Except.noConfusion hc)
  | .ok _, .error _ => .isFalse (fun hc => Except.noConfusion hc)
  | .ok a, .ok b =>
    if h : a = b then .isTrue (congrArg Except.ok h)
    else .isFalse (fun hc => h (Except.ok.inj hc))

/-- Node identifiers are strings (room ids). -/
abbrev Node := String

/-- A stored edge of a networkx graph: endpoints in insertion orientation
plus the `weight` attribute. -/
abbrev GEdge := Node × Node × ℤ

/-- Embedding of a `networkx.Graph`: node list (dict insertion order),
stored edge list (insertion order), and the `center` node attributes used
by the A* heuristic. -/
structure WGraph where
  nodes : List Node
  edges : List GEdge
  centers : List (Node × ℤ × ℤ) := []
deriving DecidableEq

namespace WGraph

/-- `G.has_node(v)`. -/
def has_node (g : WGraph) (v : Node) : Bool := g.nodes.contains v

/-- Whether a stored edge connects the unordered pair `{u, v}`. -/
def edge_matches (u v : Node) (e : GEdge) : Bool :=
  (e.1 == u && e.2.1 == v) || (e.1 == v && e.2.1 == u)

/-- `G.has_edge(u, v)` (undirected). -/
def has_edge (g : WGraph) (u v : Node) : Bool := g.edges.any (edge_matches u v)

/-- `G.add_node(v)`: appends `v` unless already present. -/
def add_node (g : WGraph) (v : Node) : WGraph :=
  if g.has_node v then g else { g with nodes := g.nodes ++ [v] }

/-- `G.add_edge(u, v, weight=w)`: inserts missing endpoints as nodes, then
either updates the weight of the existing edge between the pair (keeping its
stored orientation) or appends a new stored edge `(u, v, w)`. -/
def add_edge (g : WGraph) (u v : Node) (w : ℤ) : WGraph :=
  let g1 := (g.add_node u).add_node v
  if g1.has_edge u v then
    { g1 with edges := g1.edges.map (fun e => if edge_matches u v e then (e.1, e.2.1, w) else e) }
  else
    { g1 with edges := g1.edges ++ [(u, v, w)] }

/-- `G.remove_node(v)`: removes the node, its attributes and all incident
edges. -/
def remove_node (g : WGraph) (v : Node) : WGraph :=
  { nodes := g.nodes.filter (fun x => x ≠ v),
    edges := g.edges.filter (fun e => e.1 ≠ v && e.2.1 ≠ v),
    centers := g.centers.filter (fun c => c.1 ≠ v) }

/-- Adjacency of `u` in stored-edge insertion order (networkx keeps the
adjacency dict in edge insertion order; a self-loop appears once). -/
def neighbors (g : WGraph) (u : Node) : List Node :=
  g.edges.filterMap (fun e =>
    if e.1 = u then some e.2.1 else if e.2.1 = u then some e.1 else none)

/-- The `weight` attribute of the edge between `u` and `v`, if present. -/
def edge_weight (g : WGraph) (u v : Node) : Option ℤ :=
  (g.edges.find? (edge_matches u v)).map (fun e => e.2.2)

/-- The networkx representation invariant: node keys are distinct, every
stored edge joins existing nodes, and node attributes belong to existing
nodes.  Every graph networkx can actually hand to the backend satisfies
this. -/
def Wf (g : WGraph) : Prop :=
  g.nodes.Nodup ∧ (∀ e ∈ g.edges, e.1 ∈ g.nodes ∧ e.2.1 ∈ g.nodes) ∧
    ∀ c ∈ g.centers, c.1 ∈ g.nodes

instance (g : WGraph) : Decidable g.Wf := by
  unfold Wf; infer_instance

end WGraph

/-! ## Bellman-Ford
`nx.single_source_bellman_ford_path_length(G, source)`: single-source
shortest-path lengths tolerant of negative weights, raising
`NetworkXUnbounded` exactly when a negative-weight cycle is reachable from
the source.  Embedded as the textbook algorithm networkx documents:
relaxation passes over every directed arc (each undirected edge in both
orientations), with a final pass that reports a negative cycle iff any arc
can still be relaxed. -/

/-- Distance labels during Bellman-Ford (`⊤` = not yet reached). -/
abbrev DMap := Node → WithTop ℤ

/-- Both orientations of every stored edge. -/
def arcs (g : WGraph) : List GEdge :=
  g.edges.flatMap (fun e => [(e.1, e.2.1, e.2.2), (e.2.1, e.1, e.2.2)])

/-- Pointwise update of a distance map. -/
def dupdate (d : DMap) (v : Node) (x : WithTop ℤ) : DMap :=
  fun y => if y = v then x else d y

/-- Relax one arc. -/
def relax (d : DMap) (a : GEdge) : DMap :=
  if d a.1 + (a.2.2 : WithTop ℤ) < d a.2.1 then dupdate d a.2.1 (d a.1 + (a.2.2 : WithTop ℤ))
  else d

/-- One relaxation pass over all arcs. -/
def bf_pass (g : WGraph) (d : DMap) : DMap := (arcs g).foldl relax d

/-- Initial labels: the source at `0`, everything else unreached. -/
def bf_init (s : Node) : DMap := fun y => if y = s then ((0 : ℤ) : WithTop ℤ) else ⊤

/-- Whether relaxing `a` would still improve `d`. -/
def improvable (d : DMap) (a : GEdge) : Bool :=
  decide (d a.1 + (a.2.2 : WithTop ℤ) < d a.2.1)

/-- `nx.single_source_bellman_ford_path_length`: after `|V|` passes, any
still-improvable arc witnesses a reachable negative cycle
(`NetworkXUnbounded`, embedded as `Except.error`). -/
def bellman_ford (g : WGraph) (s : Node) : Except Unit DMap :=
  let d := (bf_pass g)^[g.nodes.length] (bf_init s)
  match (arcs g).any (improvable d) with
  | true => .error ()
  | false => .ok d

/-! ## Dijkstra
Embedding of networkx `_dijkstra` (the worker behind `dijkstra_path` and
`dijkstra_path_length`, reached from `nx.shortest_path` /
`nx.shortest_path_length` with `weight='weight'`): a heap of
`(distance, insertion counter, node)` triples popped in lexicographic
order, a `dist` dict of finalized distances, a `seen` dict of best pushed
values, a `paths` dict, strict-improvement updates (so the first path found
at a given distance is kept on ties), an early break at `target`, and
`ValueError` when a finalized label would improve (negative weights).
Python dicts are embedded as insertion-ordered association lists; the
unbounded `while` loop is embedded with explicit fuel, with
`dijkstra_fuel` below exceeding the iteration count of every run. -/

/-- Insertion-ordered association list keyed by nodes (a Python dict). -/
abbrev AList (β : Type) := List (Node × β)

/-- Dict lookup. -/
def alook {β : Type} (l : AList β) (k : Node) : Option β :=
  (l.find? (fun p => p.1 == k)).map (fun p => p.2)

/-- Dict store: replaces in place or appends (Python dict semantics). -/
def aset {β : Type} (l : AList β) (k : Node) (v : β) : AList β :=
  if l.any (fun p => p.1 == k) then l.map (fun p => if p.1 == k then (k, v) else p)
  else l ++ [(k, v)]

/-- A heap entry `(distance, counter, node)`. -/
abbrev HEntry := ℤ × ℕ × Node

/-- Strict lexicographic order on `(distance, counter)` — the order `heapq`
pops tuples in (counters are unique, so ties never reach the node). -/
def entry_lt (a b : HEntry) : Bool := a.1 < b.1 || (a.1 == b.1 && a.2.1 < b.2.1)

/-- Pop the heap minimum: returns the least entry and the rest. -/
def pop_min : List HEntry → Option (HEntry × List HEntry)
  | [] => none
  | e :: es =>
    match pop_min es with
    | none => some (e, [])
    | some (m, rest) => if entry_lt m e then some (m, e :: rest) else some (e, es)

/-- State of a `_dijkstra` run. -/
structure DijkState where
  fringe : List HEntry
  dist : AList ℤ
  seen : AList ℤ
  paths : AList (List Node)
  cnt : ℕ

/-- Relax the adjacency of a node `v` just finalized at distance `d`
(the inner `for` loop of `_dijkstra`); `Except.error` is the
`ValueError("Contradictory paths found")` raised on negative weights. -/
def dijk_relax (g : WGraph) (v : Node) (d : ℤ) :
    List Node → DijkState → Except Unit DijkState
  | [], st => .ok st
  | u :: us, st =>
    let w := (g.edge_weight v u).getD 1
    let vu := d + w
    match alook st.dist u with
    | some du => if vu < du then .error () else dijk_relax g v d us st
    | none =>
      match alook st.seen u with
      | some su =>
        if vu < su then
          dijk_relax g v d us
            { st with seen := aset st.seen u vu,
                      fringe := st.fringe ++ [(vu, st.cnt, u)],
                      paths := aset st.paths u ((alook st.paths v).getD [] ++ [u]),
                      cnt := st.cnt + 1 }
        else dijk_relax g v d us st
      | none =>
        dijk_relax g v d us
          { st with seen := aset st.seen u vu,
                    fringe := st.fringe ++ [(vu, st.cnt, u)],
                    paths := aset st.paths u ((alook st.paths v).getD [] ++ [u]),
                    cnt := st.cnt + 1 }

/-- Errors of the embedded networkx calls:
`NodeNotFound`, `NetworkXNoPath`, `ValueError`, and exhaustion of the
explicit fuel of an embedded loop. -/
inductive DErr | nodeNotFound | noPath | valueError | fuelOut
deriving DecidableEq

/-- The main `_dijkstra` loop: pop the least entry, skip it if its node is
finalized, otherwise finalize and either break at `target` or relax the
adjacency. -/
def dijk_loop (g : WGraph) (target : Option Node) :
    ℕ → DijkState → Except DErr DijkState
  | 0, _ => .error .fuelOut
  | fuel + 1, st =>
    match pop_min st.fringe with
    | none => .ok st
    | some ((d, _c, v), rest) =>
      if (alook st.dist v).isSome then dijk_loop g target fuel { st with fringe := rest }
      else
        let st1 := { st with fringe := rest, dist := aset st.dist v d }
        if target = some v then .ok st1
        else
          match dijk_relax g v d (g.neighbors v) st1 with
          | .error _ => .error .valueError
          | .ok st2 => dijk_loop g target fuel st2

/-- Initial `_dijkstra` state for source `s`. -/
def dijk_init (s : Node) : DijkState :=
  { fringe := [(0, 0, s)], dist := [], seen := [(s, 0)], paths := [(s, [s])], cnt := 1 }

/-- Fuel exceeding the iteration count of any `_dijkstra` run on `g`: each
iteration consumes a heap entry, the heap starts with one entry, and each
of the at most `|V|` finalizations pushes at most `deg(v) ≤ |E|` entries
(`dijk_loop_ok` below proves this bound is never exhausted). -/
def dijkstra_fuel (g : WGraph) : ℕ := g.nodes.length * (1 + g.edges.length) + 2

/-- A full `_dijkstra` run from `s` (with early break at `target`). -/
def run_dijkstra (g : WGraph) (s : Node) (target : Option Node) :
    Except DErr DijkState :=
  dijk_loop g target (dijkstra_fuel g) (dijk_init s)

/-- `nx.shortest_path(G, s, t, weight='weight')`: checks both endpoints
(`NodeNotFound`), short-circuits `s = t`, and otherwise returns the
Dijkstra path to `t` or raises `NetworkXNoPath`. -/
def shortest_path_w (g : WGraph) (s t : Node) : Except DErr (List Node) :=
  if ¬ g.has_node s then .error .nodeNotFound
  else if ¬ g.has_node t then .error .nodeNotFound
  else if s = t then .ok [s]
  else
    match run_dijkstra g s (some t) with
    | .error e => .error e
    | .ok st =>
      match alook st.dist t, alook st.paths t with
      | some _, some p => .ok p
      | _, _ => .error .noPath

/-- `nx.shortest_path_length(G, s, t, weight='weight')` =
`nx.dijkstra_path_length`: checks only the SOURCE for membership
(an unknown target surfaces as `NetworkXNoPath`), returns `0` for
`s = t`, else the finalized distance of `t`. -/
def shortest_path_length_w (g : WGraph) (s t : Node) : Except DErr ℤ :=
  if ¬ g.has_node s then .error .nodeNotFound
  else if s = t then .ok 0
  else
    match run_dijkstra g s (some t) with
    | .error e => .error e
    | .ok st =>
      match alook st.dist t with
      | some d => .ok d
      | none => .error .noPath

/-! ## BFS
`nx.shortest_path(G, s, t)` without a weight returns a fewest-edges path or
raises `NetworkXNoPath`; embedded as a queue-based breadth-first search
(the claims under check only inspect success, hop count and the failure
shape of this call). -/

/-- BFS over `(node, path-so-far)` queue entries. -/
def bfs_loop (g : WGraph) (t : Node) :
    ℕ → List (Node × List Node) → List Node → Except DErr (List Node)
  | 0, _, _ => .error .fuelOut
  | _ + 1, [], _ => .error .noPath
  | fuel + 1, (v, p) :: qs, visited =>
    if v = t then .ok p
    else
      let fresh := (g.neighbors v).filter (fun u => ¬ visited.contains u)
      bfs_loop g t fuel (qs ++ fresh.map (fun u => (u, p ++ [u]))) (visited ++ fresh)

/-- Unweighted shortest path (`NetworkXNoPath` when `t` is unreachable). -/
def bfs_path (g : WGraph) (s t : Node) : Except DErr (List Node) :=
  bfs_loop g t (dijkstra_fuel g) [(s, [s])] [s]

/-! ## A*
`nx.astar_path(G, s, t, heuristic, weight='weight')`.  The heuristic the
backend passes is the Euclidean distance between the `center` attributes
(defaulting to the origin when absent), an irrational real; the embedded
priority queue therefore compares real `f`-values, which makes these
definitions noncomputable.  No claim under check inspects an A* path or
distance, only the shape of its results, so executability is not needed
here. -/

/-- The heuristic closure defined inside `_find_path_astar`: straight-line
distance between node centers, `0` when a node is unknown, with missing
centers read as the origin. -/
noncomputable def heuristic (g : WGraph) (u v : Node) : ℝ :=
  if ¬ g.has_node u ∨ ¬ g.has_node v then 0
  else
    let cu := ((g.centers.find? (fun c => c.1 == u)).map (fun c => c.2)).getD (0, 0)
    let cv := ((g.centers.find? (fun c => c.1 == v)).map (fun c => c.2)).getD (0, 0)
    Real.sqrt ((((cu.1 - cv.1 : ℤ) : ℝ)) ^ 2 + (((cu.2 - cv.2 : ℤ) : ℝ)) ^ 2)

/-- An A* queue entry `(f-value, counter, node, g-value, parent)`. -/
abbrev AEntry := ℝ × ℕ × Node × ℝ × Option Node

/-- Strict lexicographic order on `(f-value, counter)`, the `heapq` pop
order for A* entries (counters are unique). -/
noncomputable def aentry_lt (a b : AEntry) : Prop :=
  a.1 < b.1 ∨ (a.1 = b.1 ∧ a.2.1 < b.2.1)

noncomputable instance (a b : AEntry) : Decidable (aentry_lt a b) := by
  unfold aentry_lt; infer_instance

/-- Pop the A* queue minimum. -/
noncomputable def apop_min : List AEntry → Option (AEntry × List AEntry)
  | [] => none
  | e :: es =>
    match apop_min es with
    | none => some (e, [])
    | some (m, rest) => if aentry_lt m e then some (m, e :: rest) else some (e, es)

/-- State of an `astar_path` run. -/
structure AStarState where
  queue : List AEntry
  enqueued : AList (ℝ × ℝ)
  explored : AList (Option Node)
  cnt : ℕ

/-- Follow `explored` parent pointers back to the source
(the `while node is not None` reconstruction loop). -/
def astar_walk (explored : AList (Option Node)) :
    ℕ → Option Node → List Node → List Node
  | _, none, acc => acc
  | 0, some _, acc => acc
  | fuel + 1, some n, acc => astar_walk explored fuel ((alook explored n).getD none) (acc ++ [n])

/-- The neighbor loop of `astar_path`: requeue on strict improvement only. -/
noncomputable def astar_relax (g : WGraph) (t curnode : Node) (dist : ℝ) :
    List Node → AStarState → AStarState
  | [], st => st
  | u :: us, st =>
    let w : ℝ := ((g.edge_weight curnode u).getD 1 : ℤ)
    let ncost := dist + w
    match alook st.enqueued u with
    | some (qcost, h) =>
      if qcost ≤ ncost then astar_relax g t curnode dist us st
      else
        astar_relax g t curnode dist us
          { st with enqueued := aset st.enqueued u (ncost, h),
                    queue := st.queue ++ [(ncost + h, st.cnt, u, ncost, some curnode)],
                    cnt := st.cnt + 1 }
    | none =>
      let h := heuristic g u t
      astar_relax g t curnode dist us
        { st with enqueued := aset st.enqueued u (ncost, h),
                  queue := st.queue ++ [(ncost + h, st.cnt, u, ncost, some curnode)],
                  cnt := st.cnt + 1 }

/-- The main `astar_path` loop; an empty queue raises `NetworkXNoPath`.
networkx's loop can fail to terminate on graphs with reachable
negative-weight cycles; the fuel bound is the embedding's budget for it. -/
noncomputable def astar_loop (g : WGraph) (t : Node) :
    ℕ → AStarState → Except DErr (List Node)
  | 0, _ => .error .fuelOut
  | fuel + 1, st =>
    match apop_min st.queue with
    | none => .error .noPath
    | some ((_f, _c, curnode, dist, parent), rest) =>
      if curnode = t then
        .ok ((astar_walk st.explored (st.explored.length + 1) parent [curnode]).reverse)
      else
        match alook st.explored curnode with
        | some none => astar_loop g t fuel { st with queue := rest }
        | some (some _) =>
          let qcost := (((alook st.enqueued curnode).map (fun p => p.1)).getD dist)
          if qcost < dist then astar_loop g t fuel { st with queue := rest }
          else
            astar_loop g t fuel
              (astar_relax g t curnode dist (g.neighbors curnode)
                { st with queue := rest, explored := aset st.explored curnode parent })
        | none =>
          astar_loop g t fuel
            (astar_relax g t curnode dist (g.neighbors curnode)
              { st with queue := rest, explored := aset st.explored curnode parent })

/-- `nx.astar_path(G, s, t, heuristic, weight='weight')`. -/
noncomputable def astar_path (g : WGraph) (s t : Node) : Except DErr (List Node) :=
  if ¬ g.has_node s ∨ ¬ g.has_node t then .error .nodeNotFound
  else
    astar_loop g t ((dijkstra_fuel g) * (dijkstra_fuel g))
      { queue := [(0, 0, s, 0, none)], enqueued := [], explored := [], cnt := 1 }

/-- Sum of the `weight` attributes along consecutive pairs of a path
(`nx.astar_path_length` applied to the path `astar_path` returns). -/
def path_weight_sum (g : WGraph) (p : List Node) : ℤ :=
  (p.zip p.tail).foldl (fun acc uv => acc + ((g.edge_weight uv.1 uv.2).getD 1)) 0

/-! ## PathFinder (`backend/pathfinder.py`) -/

/-- The result dict of `PathFinder.find_path`: `success`, `path`,
`distance`, and on failure an `error` message (success dicts carry no
`error` key, embedded as `none`). -/
structure PFResult where
  success : Bool
  path : List Node
  distance : ℤ
  error : Option String
deriving DecidableEq

/-- The uniform failure dict `find_path` builds in every error branch. -/
def err_result (msg : String) : PFResult :=
  { success := false, path := [], distance := 0, error := some msg }

/-- The `except` clauses of `find_path`: `nx.NetworkXNoPath` becomes the
"No path found" dict and any other exception the "Pathfinding error" dict
(whose Python text also interpolates `str(e)`; only its non-emptiness
matters to the claims). -/
def dispatch_error (s t : Node) : DErr → PFResult
  | .noPath => err_result ("No path found between " ++ s ++ " and " ++ t)
  | _ => err_result "Pathfinding error"

/-- `PathFinder._find_path_dijkstra`: `nx.shortest_path` then
`nx.shortest_path_length`, both with `weight='weight'`. -/
def find_path_dijkstra (g : WGraph) (s t : Node) : PFResult :=
  match shortest_path_w g s t with
  | .error e => dispatch_error s t e
  | .ok p =>
    match shortest_path_length_w g s t with
    | .error e => dispatch_error s t e
    | .ok d => { success := true, path := p, distance := d, error := none }

/-- `PathFinder._find_path_astar`: `nx.astar_path` then
`nx.astar_path_length` (which recomputes the same path and sums its
weights). -/
noncomputable def find_path_astar (g : WGraph) (s t : Node) : PFResult :=
  match astar_path g s t with
  | .error e => dispatch_error s t e
  | .ok p => { success := true, path := p, distance := path_weight_sum g p, error := none }

/-- `PathFinder._find_path_bfs`: unweighted `nx.shortest_path`, distance
reported as the number of steps `len(path) - 1`. -/
def find_path_bfs (g : WGraph) (s t : Node) : PFResult :=
  match bfs_path g s t with
  | .error e => dispatch_error s t e
  | .ok p => { success := true, path := p, distance := ((p.length - 1 : ℕ) : ℤ), error := none }

/-- `PathFinder.find_path(start_room, end_room, algorithm)`. -/
noncomputable def find_path (g : WGraph) (s t : Node) (alg : String) : PFResult :=
  if ¬ g.has_node s then err_result ("Starting room " ++ s ++ " not found")
  else if ¬ g.has_node t then err_result ("Destination room " ++ t ++ " not found")
  else if s = t then { success := true, path := [s], distance := 0, error := none }
  else if alg = "dijkstra" then find_path_dijkstra g s t
  else if alg = "astar" then find_path_astar g s t
  else if alg = "bfs" then find_path_bfs g s t
  else err_result ("Unknown algorithm: " ++ alg)

/-! ### `find_all_paths` -/

/-- The recursive enumeration behind `nx.all_simple_paths(G, s, t, cutoff)`:
simple continuations from `u` to `t` using at most `fuel` further edges,
avoiding `visited`. -/
def simple_paths_from (g : WGraph) (t : Node) :
    ℕ → Node → List Node → List (List Node)
  | 0, _, _ => []
  | fuel + 1, u, visited =>
    (g.neighbors u).flatMap (fun v =>
      if v = t then [[t]]
      else if visited.contains v then []
      else (simple_paths_from g t fuel v (visited ++ [v])).map (fun q => v :: q))

/-- `nx.all_simple_paths(G, s, t, cutoff)` (empty when `s = t`, as in
networkx; both endpoints are known to be present at the call site). -/
def all_simple_paths (g : WGraph) (s t : Node) (cutoff : ℕ) : List (List Node) :=
  if s = t then [] else (simple_paths_from g t cutoff s [s]).map (fun q => s :: q)

/-- `PathFinder._calculate_path_distance`: sums the weights of consecutive
pairs that are edges (pairs without an edge contribute nothing). -/
def calculate_path_distance (g : WGraph) (p : List Node) : ℤ :=
  (p.zip p.tail).foldl
    (fun acc uv =>
      if g.has_edge uv.1 uv.2 then acc + ((g.edge_weight uv.1 uv.2).getD 1) else acc) 0

/-- An element of the `find_all_paths` result list. -/
structure APResult where
  success : Bool
  path : List Node
  distance : ℤ
  steps : ℕ
deriving DecidableEq

/-- Stable insertion into a length-sorted list: `p` lands before the first
entry of strictly greater or equal-and-later length. -/
def insert_by_len (p : List Node) : List (List Node) → List (List Node)
  | [] => [p]
  | q :: qs => if p.length ≤ q.length then p :: q :: qs else q :: insert_by_len p qs

/-- Python's stable `list.sort(key=len)` (ascending).  A stable sort with
respect to a total preorder is unique as a function, so this structural
insertion sort computes exactly what Timsort does. -/
def sort_by_len (l : List (List Node)) : List (List Node) :=
  l.foldr insert_by_len []

/-- `PathFinder.find_all_paths(start_room, end_room, max_paths=5)`:
empty on a missing endpoint, else the simple paths with cutoff 10 sorted
ascending by node count, truncated to `max_paths`, each with its computed
distance and step count. -/
def find_all_paths (g : WGraph) (s t : Node) (max_paths : ℕ := 5) : List APResult :=
  if ¬ g.has_node s ∨ ¬ g.has_node t then []
  else
    ((sort_by_len (all_simple_paths g s t 10)).take max_paths).map (fun p =>
      { success := true, path := p, distance := calculate_path_distance g p,
        steps := p.length - 1 })

/-- `PathFinder.get_shortest_distance`: swallows `nx.NetworkXNoPath` into
the sentinel `-1`; every other exception of `nx.shortest_path_length`
(notably `NodeNotFound` for an unknown start) propagates. -/
def get_shortest_distance (g : WGraph) (s t : Node) : Except DErr ℤ :=
  match shortest_path_length_w g s t with
  | .ok d => .ok d
  | .error .noPath => .ok (-1)
  | .error e => .error e

/-! ## Johnson reweighter (`backend/src/johnson_pathfinder.py`)
`JohnsonPathfinder.find_shortest_path` mutates `self.graph` in place; the
embedding threads the graph state explicitly and returns the final state
alongside the outcome. -/

/-- Step 1-2 of `find_shortest_path`: `add_node('source')`, then a
zero-weight edge from `'source'` to every other node (iterating the node
list, skipping `'source'` itself). -/
def johnson_setup (g : WGraph) : WGraph :=
  let g1 := g.add_node "source"
  g1.nodes.foldl (fun h v => if v ≠ "source" then h.add_edge "source" v 0 else h) g1

/-- Step 4: `data['weight'] += h[u] - h[v]` over every stored edge
(`h` is total on the nodes of the setup graph, all being reachable from
`'source'`; `⊤` cannot occur there and is read as `0`). -/
def reweight (g : WGraph) (h : DMap) : WGraph :=
  { g with
    edges := g.edges.map (fun e =>
      (e.1, e.2.1, e.2.2 + (h e.1).untop' 0 - (h e.2.1).untop' 0)) }

/-- Outcome of `find_shortest_path`: either an uncaught exception
(`ValueError` for the negative cycle, `NodeNotFound` from the final query)
or the result dict of step 6. -/
inductive JOut
  | raised (e : DErr)
  | result (r : PFResult)
deriving DecidableEq

/-- `JohnsonPathfinder.find_shortest_path(start_room, end_room)`, paired
with the graph state the caller's `self.graph` is left in. -/
def find_shortest_path (g : WGraph) (s t : Node) : JOut × WGraph :=
  let g2 := johnson_setup g
  match bellman_ford g2 "source" with
  | .error _ => (.raised .valueError, g2)
  | .ok h =>
    let g4 := (reweight g2 h).remove_node "source"
    let out :=
      match shortest_path_w g4 s t with
      | .error .noPath =>
        .result (err_result ("No path found between " ++ s ++ " and " ++ t))
      | .error e => .raised e
      | .ok p =>
        match shortest_path_length_w g4 s t with
        | .error .noPath =>
          .result (err_result ("No path found between " ++ s ++ " and " ++ t))
        | .error e => .raised e
        | .ok d => .result { success := true, path := p, distance := d, error := none }
    (out, g4)

/-! ## GraphBuilder (`backend/graph_builder.py`)
`build_graph` computes edge weights with `math.sqrt`, so the built graph
carries real weights; these definitions are noncomputable in the weight
components only (no claim under check compares a corridor weight). -/

/-- A room entry of the floor data (`id`, `name`, `center`, `bounds`). -/
structure Room where
  id : Node
  name : String
  center : ℤ × ℤ
  bounds : ℤ × ℤ × ℤ × ℤ
deriving DecidableEq

/-- A door entry; `connects` is `none` when the `'connects'` key is
absent. -/
structure Door where
  id : String
  position : ℤ × ℤ
  connects : Option (List Node)
deriving DecidableEq

/-- The floor-data dict: `rooms` / `doors` are `none` when the key is
absent, and `other_keys` records whether any further key (e.g.
`floor_id`) makes the dict truthy. -/
structure FloorData where
  rooms : Option (List Room)
  doors : Option (List Door)
  other_keys : Bool := false
deriving DecidableEq

/-- A node of the built graph with the attributes `_add_room_nodes` sets
(nodes inserted implicitly by `add_edge` carry no attributes). -/
structure BNode where
  id : Node
  name : Option String := none
  center : Option (ℤ × ℤ) := none
  bounds : Option (ℤ × ℤ × ℤ × ℤ) := none
deriving DecidableEq

/-- A stored edge of the built graph with its attribute dict
(`type`, `weight`, optional `door_id`, optional `position`). -/
structure BEdge where
  a : Node
  b : Node
  etype : String
  weight : ℝ
  door_id : Option String := none
  position : Option (ℤ × ℤ) := none

/-- The `networkx.Graph` the builder populates. -/
structure BGraph where
  nodes : List BNode
  edges : List BEdge

/-- `GraphBuilder._calculate_distance`: Euclidean distance. -/
noncomputable def calculate_distance (p1 p2 : ℤ × ℤ) : ℝ :=
  Real.sqrt ((((p1.1 - p2.1 : ℤ) : ℝ)) * (((p1.1 - p2.1 : ℤ) : ℝ)) +
    (((p1.2 - p2.2 : ℤ) : ℝ)) * (((p1.2 - p2.2 : ℤ) : ℝ)))

namespace BGraph

/-- `G.has_node`. -/
def bhas_node (g : BGraph) (v : Node) : Bool := g.nodes.any (fun n => n.id == v)

/-- `G.has_edge` (undirected). -/
def bhas_edge (g : BGraph) (u v : Node) : Bool :=
  g.edges.any (fun e => (e.a == u && e.b == v) || (e.a == v && e.b == u))

/-- `G.add_node(id, **attrs)`: updates attributes in place or appends. -/
def add_room_node (g : BGraph) (n : BNode) : BGraph :=
  if g.bhas_node n.id then
    { g with nodes := g.nodes.map (fun m => if m.id == n.id then n else m) }
  else { g with nodes := g.nodes ++ [n] }

/-- Insert a bare (attribute-less) node unless the id is present. -/
def binsert_node (ns : List BNode) (v : Node) : List BNode :=
  if ns.any (fun n => n.id == v) then ns else ns ++ [{ id := v }]

/-- `G.add_edge(u, v, **attrs)`: silently inserts missing endpoints as
attribute-less nodes, and updates the existing edge's attributes (keeping
its stored orientation) or appends a new stored edge.  (The node and edge
updates are independent of each other.) -/
def badd_edge (g : BGraph) (u v : Node) (etype : String) (w : ℝ)
    (door_id : Option String) (position : Option (ℤ × ℤ)) : BGraph :=
  { nodes := binsert_node (binsert_node g.nodes u) v,
    edges :=
      if g.bhas_edge u v then
        g.edges.map (fun e =>
          if (e.a == u && e.b == v) || (e.a == v && e.b == u) then
            { e with etype := etype, weight := w, door_id := door_id, position := position }
          else e)
      else g.edges ++ [BEdge.mk u v etype w door_id position] }

end BGraph

/-- `GraphBuilder._add_room_nodes`. -/
def add_room_nodes (g : BGraph) (fd : FloorData) : BGraph :=
  match fd.rooms with
  | none => g
  | some rooms =>
    rooms.foldl (fun h r =>
      h.add_room_node
        { id := r.id, name := some r.name, center := some r.center, bounds := some r.bounds }) g

/-- The per-door body of `GraphBuilder._add_door_connections`: doors whose
`connects` entry is absent or whose length differs from 2 are skipped,
otherwise a `door` edge is added with weight
`_calculate_distance(door['position'], door['position'])`. -/
noncomputable def add_door_step (g : BGraph) (d : Door) : BGraph :=
  match d.connects with
  | none => g
  | some conn =>
    if h2 : conn.length = 2 then
      g.badd_edge (conn.get ⟨0, by omega⟩) (conn.get ⟨1, by omega⟩) "door"
        (calculate_distance d.position d.position) (some d.id) (some d.position)
    else g

/-- `GraphBuilder._add_door_connections`. -/
noncomputable def add_door_connections (g : BGraph) (fd : FloorData) : BGraph :=
  match fd.doors with
  | none => g
  | some doors => doors.foldl add_door_step g

/-- The inner body of `GraphBuilder._add_corridor_connections`: rooms
already connected are skipped, rooms whose centers lie within 200 units
get a `corridor` edge weighted `distance * 1.2`. -/
noncomputable def corridor_step (r1 : Room) (g : BGraph) (r2 : Room) : BGraph :=
  if g.bhas_edge r1.id r2.id then g
  else
    let d := calculate_distance r1.center r2.center
    if d < 200 then g.badd_edge r1.id r2.id "corridor" (d * (12 / 10)) none none
    else g

/-- The pair loop of `_add_corridor_connections`
(`for i, room1 in enumerate(rooms): for room2 in rooms[i+1:]`). -/
noncomputable def corridor_pairs (g : BGraph) : List Room → BGraph
  | [] => g
  | r :: rs => corridor_pairs (rs.foldl (corridor_step r) g) rs

/-- `GraphBuilder._add_corridor_connections`. -/
noncomputable def add_corridor_connections (g : BGraph) (fd : FloorData) : BGraph :=
  match fd.rooms with
  | none => g
  | some rooms => corridor_pairs g rooms

/-- `GraphBuilder.build_graph`: raises `ValueError` on a falsy (empty)
floor-data dict, else clears the graph and runs the three passes. -/
noncomputable def build_graph (fd : FloorData) : Except Unit BGraph :=
  if fd.rooms.isNone && fd.doors.isNone && !fd.other_keys then .error ()
  else
    .ok (add_corridor_connections
      (add_door_connections (add_room_nodes (BGraph.mk [] []) fd) fd) fd)

/-! # Lemmas about Bellman-Ford and the Johnson setup -/

/-- Relaxing one arc never increases a label. -/
theorem relax_le (d : DMap) (a : GEdge) (x : Node) : relax d a x ≤ d x := by
  unfold relax dupdate
  split
  · next hlt =>
    by_cases hx : x = a.2.1
    · simp only [hx, if_pos rfl]
      exact le_of_lt (hx ▸ hlt)
    · simp [hx]
  · exact le_rfl

/-- A relaxation pass never increases a label. -/
theorem foldl_relax_le (l : List GEdge) (d : DMap) (x : Node) :
    (l.foldl relax d) x ≤ d x := by
  induction l generalizing d with
  | nil => exact le_rfl
  | cons a l ih => exact le_trans (ih (relax d a)) (relax_le d a x)

/-- Iterated passes never increase a label. -/
theorem bf_iterate_le (g : WGraph) (n : ℕ) (d : DMap) (x : Node) :
    ((bf_pass g)^[n] d) x ≤ d x := by
  induction n with
  | zero => exact le_rfl
  | succ n ih =>
    rw [Function.iterate_succ_apply']
    exact le_trans (foldl_relax_le _ _ x) ih

/-- When `bellman_ford` succeeds, the returned labels are a relaxation
fixpoint (no arc improves) and lie below the initial labels. -/
theorem bellman_ford_ok {g : WGraph} {s : Node} {h : DMap}
    (hbf : bellman_ford g s = .ok h) :
    (∀ a ∈ arcs g, h a.2.1 ≤ h a.1 + (a.2.2 : WithTop ℤ)) ∧ ∀ x, h x ≤ bf_init s x := by
  unfold bellman_ford at hbf
  simp only at hbf
  cases hany : (arcs g).any (improvable ((bf_pass g)^[g.nodes.length] (bf_init s))) with
  | true => rw [hany] at hbf; exact absurd hbf (by simp)
  | false =>
    rw [hany] at hbf
    simp only at hbf
    injection hbf with hdh
    subst hdh
    refine ⟨fun a ha => ?_, fun x => bf_iterate_le g _ _ x⟩
    have himp := List.any_eq_false.mp hany a ha
    unfold improvable at himp
    simpa using not_lt.mp (by simpa using himp)

/-- The zero-weight star edge the Johnson setup adds for a node. -/
def sedge (v : Node) : GEdge := ("source", v, 0)

/-- The caller's graph extended with the synthetic source node and star
edges to the nodes of `pre` (an intermediate state of the setup loop). -/
def star_graph (g : WGraph) (pre : List Node) : WGraph :=
  { nodes := g.nodes ++ ["source"], edges := g.edges ++ pre.map sedge,
    centers := g.centers }

/-- The `add_edge` step of the Johnson setup loop appends exactly one star
edge when the graph carries the original edges plus star edges to other
nodes. -/
theorem setup_add_edge_step (g : WGraph)
    (hedge : ∀ e ∈ g.edges, e.1 ∈ g.nodes ∧ e.2.1 ∈ g.nodes)
    (hs : "source" ∉ g.nodes) (pre : List Node) (v : Node)
    (hvmem : v ∈ g.nodes) (hvs : v ≠ "source") (hpv : ∀ p ∈ pre, p ≠ v) :
    (star_graph g pre).add_edge "source" v 0 = star_graph g (pre ++ [v]) := by
  have hnomatch : (star_graph g pre).has_edge "source" v = false := by
    unfold WGraph.has_edge star_graph
    rw [List.any_eq_false]
    intro e he
    rcases List.mem_append.mp he with heg | hep
    · have hue := hedge e heg
      have h1 : e.1 ≠ "source" := fun hx => hs (hx ▸ hue.1)
      have h2 : e.2.1 ≠ "source" := fun hx => hs (hx ▸ hue.2)
      unfold WGraph.edge_matches
      simp [h1, h2]
    · obtain ⟨p, hp, rfl⟩ := List.mem_map.mp hep
      have h1 : (p == v) = false := by simpa using hpv p hp
      have h2 : ("source" == v) = false := by
        simpa using fun hx : "source" = v => hvs hx.symm
      unfold WGraph.edge_matches sedge
      simp [h1, h2]
  have haddu : (star_graph g pre).add_node "source" = star_graph g pre := by
    unfold WGraph.add_node WGraph.has_node star_graph
    rw [if_pos (by simp)]
  have haddv : (star_graph g pre).add_node v = star_graph g pre := by
    unfold WGraph.add_node WGraph.has_node star_graph
    rw [if_pos (by simp [hvmem])]
  simp only [WGraph.add_edge, haddu, haddv, hnomatch]
  simp [star_graph, sedge]

/-- Under the networkx invariant, and when the caller's graph has no node
literally named `source`, the Johnson setup appends the synthetic node and
one zero-weight star edge per original node. -/
theorem johnson_setup_spec (g : WGraph) (hwf : g.Wf) (hs : "source" ∉ g.nodes) :
    johnson_setup g = star_graph g g.nodes := by
  obtain ⟨hnd, hedge, _hc⟩ := hwf
  have hg1 : g.add_node "source" = star_graph g [] := by
    unfold WGraph.add_node WGraph.has_node star_graph
    rw [if_neg (by simpa using hs)]
    simp
  have hnodes1 : (g.add_node "source").nodes = g.nodes ++ ["source"] := by
    rw [hg1]; rfl
  unfold johnson_setup
  simp only at hnodes1 ⊢
  rw [hg1]
  have hnodes2 : (star_graph g []).nodes = g.nodes ++ ["source"] := rfl
  rw [hnodes2]
  have key : ∀ (L pre : List Node), g.nodes = pre ++ L → (∀ p ∈ pre, p ∉ L) →
      L.foldl (fun h v => if v ≠ "source" then h.add_edge "source" v 0 else h)
        (star_graph g pre) = star_graph g (pre ++ L) := by
    intro L
    induction L with
    | nil => intro pre _ _; simp
    | cons v L ih =>
      intro pre hsplit hdisj
      have hvmem : v ∈ g.nodes := by rw [hsplit]; simp
      have hvs : v ≠ "source" := fun hv => hs (hv ▸ hvmem)
      have hpv : ∀ p ∈ pre, p ≠ v := fun p hp hpe =>
        hdisj p hp (by rw [hpe]; exact List.mem_cons_self v L)
      simp only [List.foldl_cons, if_pos hvs]
      rw [setup_add_edge_step g hedge hs pre v hvmem hvs hpv]
      have hsplit' : g.nodes = (pre ++ [v]) ++ L := by rw [hsplit]; simp
      have hdisj' : ∀ p ∈ pre ++ [v], p ∉ L := by
        intro p hp
        rcases List.mem_append.mp hp with hp1 | hp2
        · exact fun hpL => hdisj p hp1 (List.mem_cons_of_mem v hpL)
        · have hpveq : p = v := by simpa using hp2
          subst hpveq
          rw [hsplit'] at hnd
          have hde := List.nodup_append.mp hnd
          exact fun hpL => (hde.2.2 (by simp)) hpL
      have hres := ih (pre ++ [v]) hsplit' hdisj'
      simpa using hres
  rw [List.foldl_append]
  rw [key g.nodes [] (by simp) (by simp)]
  simp only [List.foldl_cons, List.foldl_nil]
  rw [if_neg (by simp)]
  simp

/-- Both orientations of a stored edge are arcs. -/
theorem mem_arcs_of_mem_edges {g : WGraph} {e : GEdge} (he : e ∈ g.edges) :
    (e.1, e.2.1, e.2.2) ∈ arcs g ∧ (e.2.1, e.1, e.2.2) ∈ arcs g := by
  unfold arcs
  exact ⟨List.mem_flatMap.mpr ⟨e, he, by simp⟩, List.mem_flatMap.mpr ⟨e, he, by simp⟩⟩

/-- After a successful Bellman-Ford run on the Johnson setup graph, every
label equals the source label, which is a nonpositive integer: the
zero-weight star forces all labels together. -/
theorem johnson_labels_const (g : WGraph) (hwf : g.Wf) (hs : "source" ∉ g.nodes)
    {h : DMap} (hbf : bellman_ford (johnson_setup g) "source" = .ok h) :
    ∃ q : ℤ, q ≤ 0 ∧ h "source" = (q : WithTop ℤ) ∧
      ∀ v ∈ g.nodes, h v = (q : WithTop ℤ) := by
  obtain ⟨hfix, hle⟩ := bellman_ford_ok hbf
  have hsetup := johnson_setup_spec g hwf hs
  have hsrc0 : h "source" ≤ ((0 : ℤ) : WithTop ℤ) := by
    have := hle "source"
    unfold bf_init at this
    simpa using this
  have hstar : ∀ v ∈ g.nodes, sedge v ∈ (johnson_setup g).edges := by
    intro v hv
    rw [hsetup]
    exact List.mem_append.mpr (Or.inr (List.mem_map.mpr ⟨v, hv, rfl⟩))
  have heq : ∀ v ∈ g.nodes, h v = h "source" := by
    intro v hv
    obtain ⟨ha1, ha2⟩ := mem_arcs_of_mem_edges (hstar v hv)
    have h1 := hfix _ ha1
    have h2 := hfix _ ha2
    unfold sedge at h1 h2
    simp only [WithTop.coe_zero, add_zero] at h1 h2
    exact le_antisymm h1 h2
  have hne : h "source" ≠ ⊤ := by
    intro htop
    rw [htop] at hsrc0
    exact (WithTop.not_top_le_coe _) hsrc0
  obtain ⟨q, hq⟩ := WithTop.ne_top_iff_exists.mp hne
  refine ⟨q, ?_, hq.symm, fun v hv => by rw [heq v hv, ← hq]⟩
  have := hsrc0
  rw [← hq] at this
  exact_mod_cast this

/-- The node set of the Johnson setup graph. -/
theorem johnson_setup_nodes (g : WGraph) (hwf : g.Wf) (hs : "source" ∉ g.nodes) :
    (johnson_setup g).nodes = g.nodes ++ ["source"] := by
  rw [johnson_setup_spec g hwf hs]; rfl

/-- Labels on edge endpoints of the setup graph after a successful run. -/
theorem johnson_endpoint_labels (g : WGraph) (hwf : g.Wf) (hs : "source" ∉ g.nodes)
    {h : DMap} (hbf : bellman_ford (johnson_setup g) "source" = .ok h) :
    ∃ q : ℤ, q ≤ 0 ∧ ∀ e ∈ (johnson_setup g).edges,
      h e.1 = (q : WithTop ℤ) ∧ h e.2.1 = (q : WithTop ℤ) := by
  obtain ⟨q, hq0, hqs, hqn⟩ := johnson_labels_const g hwf hs hbf
  refine ⟨q, hq0, fun e he => ?_⟩
  rw [johnson_setup_spec g hwf hs] at he
  rcases List.mem_append.mp he with heg | hes
  · exact ⟨hqn _ (hwf.2.1 e heg).1, hqn _ (hwf.2.1 e heg).2⟩
  · obtain ⟨v, hv, rfl⟩ := List.mem_map.mp hes
    exact ⟨hqs, hqn v hv⟩

/-- The graph component of `find_shortest_path` after a successful
Bellman-Ford stage. -/
theorem find_shortest_path_snd (g : WGraph) (s t : Node) {h : DMap}
    (hbf : bellman_ford (johnson_setup g) "source" = .ok h) :
    (find_shortest_path g s t).2 = (reweight (johnson_setup g) h).remove_node "source" := by
  unfold find_shortest_path
  simp only [hbf]

/-! # Claim C1 -/

/-- C1.  For every (networkx-representable) graph on which the Bellman-Ford
stage succeeds — which is exactly the graphs without a negative-weight
cycle, since the synthetic source reaches every node — every edge weight of
the graph `find_shortest_path` leaves behind after the reweighting step
`w' = w + h(u) - h(v)` is nonnegative. -/
theorem reweighted_edges_nonneg (g : WGraph) (s t : Node)
    (hwf : g.Wf) (hs : "source" ∉ g.nodes) (h : DMap)
    (hbf : bellman_ford (johnson_setup g) "source" = .ok h) :
    ∀ e ∈ (find_shortest_path g s t).2.edges, 0 ≤ e.2.2 := by
  rw [find_shortest_path_snd g s t hbf]
  intro e he
  unfold WGraph.remove_node at he
  have he2 := (List.mem_filter.mp he).1
  unfold reweight at he2
  simp only at he2
  obtain ⟨e0, he0, rfl⟩ := List.mem_map.mp he2
  obtain ⟨q, _hq0, hql⟩ := johnson_endpoint_labels g hwf hs hbf
  obtain ⟨hq1, hq2⟩ := hql e0 he0
  have harc := (bellman_ford_ok hbf).1 _ (mem_arcs_of_mem_edges he0).1
  rw [hq1, hq2] at harc
  rw [show ((q : WithTop ℤ) + (e0.2.2 : WithTop ℤ)) = ((q + e0.2.2 : ℤ) : WithTop ℤ) by
    exact_mod_cast rfl] at harc
  have hqle : q ≤ q + e0.2.2 := by exact_mod_cast harc
  simp only [hq1, hq2, WithTop.untop'_coe]
  omega

/-- A two-node, one-edge graph with weight 3 (no negative cycle). -/
def gW : WGraph := ⟨["A", "B"], [("A", "B", 3)], []⟩

/-- The Bellman-Ford labels computed on the setup of `gW`. -/
def hW : DMap :=
  (bf_pass (johnson_setup gW))^[(johnson_setup gW).nodes.length] (bf_init "source")

/-- Witness for C1 at `gW`. -/
theorem reweighted_edges_nonneg_witness :
    gW.Wf ∧ "source" ∉ gW.nodes ∧
      bellman_ford (johnson_setup gW) "source" = .ok hW ∧
      ∀ e ∈ (find_shortest_path gW "A" "B").2.edges, 0 ≤ e.2.2 :=
  ⟨by decide, by decide, rfl,
    reweighted_edges_nonneg gW "A" "B" (by decide) (by decide) hW rfl⟩

/-! # Claim C2 -/

/-- A graph whose single edge has negative weight: traversing it back and
forth is a negative-weight cycle, which Bellman-Ford detects. -/
def gNeg : WGraph := ⟨["A", "B"], [("A", "B", -1)], []⟩

/-- C2 (divergence witness).  On a negative-cycle graph
`find_shortest_path` does raise (`ValueError`, the code's stand-in for
`NegativeCycleError`), but the caller's graph is left MUTATED: the
synthetic `source` node and its zero-weight star edges are still in the
graph after the failing call. -/
theorem negative_cycle_raises_and_leaves_source :
    (find_shortest_path gNeg "A" "B").1 = .raised .valueError ∧
      "source" ∈ (find_shortest_path gNeg "A" "B").2.nodes ∧
      ("source", "A", (0 : ℤ)) ∈ (find_shortest_path gNeg "A" "B").2.edges ∧
      ("source", "B", (0 : ℤ)) ∈ (find_shortest_path gNeg "A" "B").2.edges := by
  refine ⟨by decide, by decide, by decide, by decide⟩

/-! # Claim C3 -/

/-- A caller graph that already owns a node named `source`. -/
def gSrcColl : WGraph := ⟨["source", "A"], [("source", "A", 5)], []⟩

/-- C3 (counterexample).  The claim fails for a caller graph that already
contains a node named `source`: the call below succeeds (returns a result
dict) yet the caller's graph loses that node and its edge. -/
theorem source_collision_not_restored :
    (find_shortest_path gSrcColl "A" "A").1 =
        .result { success := true, path := ["A"], distance := 0, error := none } ∧
      (find_shortest_path gSrcColl "A" "A").2 ≠ gSrcColl ∧
      (find_shortest_path gSrcColl "A" "A").2.nodes = ["A"] := by
  refine ⟨by decide, by decide, by decide⟩

/-- C3 (amended).  Provided the caller's graph has no node named `source`,
a call whose Bellman-Ford stage succeeds leaves the caller's graph with
exactly its original node set, edge set (including weights) and node
attributes — the code mutates the graph in place but restores it, because
at the Bellman-Ford fixpoint the zero-weight star forces `h(u) = h(v)` on
every edge, making the reweighting the identity. -/
theorem find_shortest_path_restores_graph (g : WGraph) (s t : Node)
    (hwf : g.Wf) (hs : "source" ∉ g.nodes) (h : DMap)
    (hbf : bellman_ford (johnson_setup g) "source" = .ok h) :
    (find_shortest_path g s t).2 = g := by
  rw [find_shortest_path_snd g s t hbf]
  obtain ⟨q, _hq0, hql⟩ := johnson_endpoint_labels g hwf hs hbf
  have hrw : reweight (johnson_setup g) h = johnson_setup g := by
    unfold reweight
    have hmap : (johnson_setup g).edges.map (fun e =>
        (e.1, e.2.1, e.2.2 + (h e.1).untop' 0 - (h e.2.1).untop' 0)) =
        (johnson_setup g).edges.map id := by
      apply List.map_congr_left
      intro e he
      obtain ⟨hq1, hq2⟩ := hql e he
      simp [hq1, hq2]
    rw [hmap, List.map_id]
  rw [hrw, johnson_setup_spec g hwf hs]
  unfold WGraph.remove_node star_graph
  simp only
  have hn : (g.nodes ++ ["source"]).filter (fun x => x ≠ "source") = g.nodes := by
    rw [List.filter_append]
    have hfs : g.nodes.filter (fun x => x ≠ "source") = g.nodes := by
      apply List.filter_eq_self.mpr
      intro x hx
      have hxne : x ≠ "source" := fun hxs => hs (hxs ▸ hx)
      simpa using hxne
    rw [hfs]
    simp
  have he : (g.edges ++ g.nodes.map sedge).filter
      (fun e => e.1 ≠ "source" && e.2.1 ≠ "source") = g.edges := by
    rw [List.filter_append]
    rw [List.filter_eq_self.mpr (fun e hx => by
      have h1 : e.1 ≠ "source" := fun hc => hs (hc ▸ (hwf.2.1 e hx).1)
      have h2 : e.2.1 ≠ "source" := fun hc => hs (hc ▸ (hwf.2.1 e hx).2)
      simp [h1, h2])]
    have : (g.nodes.map sedge).filter
        (fun e => e.1 ≠ "source" && e.2.1 ≠ "source") = [] := by
      rw [List.filter_eq_nil_iff]
      intro e hx
      obtain ⟨v, _hv, rfl⟩ := List.mem_map.mp hx
      simp [sedge]
    rw [this]
    simp
  have hc : g.centers.filter (fun c => c.1 ≠ "source") = g.centers := by
    apply List.filter_eq_self.mpr
    intro c hx
    have hcne : c.1 ≠ "source" := fun hcs => hs (hcs ▸ hwf.2.2 c hx)
    simpa using hcne
  rw [hn, he, hc]

/-- Witness for the amended C3 at `gW`. -/
theorem find_shortest_path_restores_graph_witness :
    gW.Wf ∧ "source" ∉ gW.nodes ∧
      bellman_ford (johnson_setup gW) "source" = .ok hW ∧
      (find_shortest_path gW "A" "B").2 = gW :=
  ⟨by decide, by decide, rfl,
    find_shortest_path_restores_graph gW "A" "B" (by decide) (by decide) hW rfl⟩

/-! # Claim C4 -/

/-- The spec's concrete tie scenario: A-B 1, B-C 2, C-D 1, A-D 4. -/
def G4 : WGraph :=
  ⟨["A", "B", "C", "D"], [("A", "B", 1), ("B", "C", 2), ("C", "D", 1), ("A", "D", 4)], []⟩

/-- C4 (counterexample).  On the tie graph, `find_path('A','D','dijkstra')`
does NOT return the path `[A, B, C, D]` the claim asserts. -/
theorem dijkstra_tie_path_counterexample :
    (find_path G4 "A" "D" "dijkstra").path ≠ ["A", "B", "C", "D"] := by
  decide

/-- C4 (amended).  The call succeeds with distance 4 but path `[A, D]`:
Dijkstra replaces a discovered route only on strict improvement, so the
direct edge found first is kept over the later equal-cost route through
`B, C`. -/
theorem dijkstra_tie_returns_direct_edge :
    find_path G4 "A" "D" "dijkstra" =
      { success := true, path := ["A", "D"], distance := 4, error := none } := by
  decide

/-! # Claim C5 -/

/-- C5.  For every graph and node `u` of it, `find_path(u, u, alg)`
short-circuits to the single-node path with distance 0, for every
algorithm string (the check precedes dispatch). -/
theorem find_path_same_start_end (g : WGraph) (u : Node) (alg : String)
    (hu : g.has_node u = true) :
    find_path g u u alg = { success := true, path := [u], distance := 0, error := none } := by
  unfold find_path
  rw [if_neg (by simp [hu]), if_neg (by simp [hu]), if_pos rfl]

/-- Witness for C5 at `G4`. -/
theorem find_path_same_start_end_witness :
    G4.has_node "B" = true ∧
      find_path G4 "B" "B" "dijkstra" =
        { success := true, path := ["B"], distance := 0, error := none } :=
  ⟨by decide, find_path_same_start_end G4 "B" "dijkstra" (by decide)⟩

/-! # Claim C10 -/

/-- The failure dict contract of `find_path`: `success=false`, empty path,
zero distance and a non-empty error string. -/
def FailShape (r : PFResult) : Prop :=
  r.success = false ∧ r.path = [] ∧ r.distance = 0 ∧
    ∃ m, r.error = some m ∧ m ≠ ""

/-- Appending to a non-empty string prefix stays non-empty. -/
theorem append2_ne_empty (p m : String) (hp : 0 < p.length) : p ++ m ≠ "" := by
  intro hc
  have hlen : (p ++ m).length = 0 := by rw [hc]; rfl
  simp only [String.length_append] at hlen
  omega

/-- Appending to a non-empty string prefix stays non-empty. -/
theorem append3_ne_empty (p m q : String) (hp : 0 < p.length) : p ++ m ++ q ≠ "" := by
  intro hc
  have hlen : (p ++ m ++ q).length = 0 := by rw [hc]; rfl
  simp only [String.length_append] at hlen
  omega

/-- Appending to a non-empty string prefix stays non-empty. -/
theorem append4_ne_empty (p m q r : String) (hp : 0 < p.length) : p ++ m ++ q ++ r ≠ "" := by
  intro hc
  have hlen : (p ++ m ++ q ++ r).length = 0 := by rw [hc]; rfl
  simp only [String.length_append] at hlen
  omega

theorem err_result_fail_shape (m : String) (hm : m ≠ "") : FailShape (err_result m) :=
  ⟨rfl, rfl, rfl, m, rfl, hm⟩

theorem dispatch_error_fail_shape (s t : Node) (e : DErr) :
    FailShape (dispatch_error s t e) := by
  cases e
  · exact err_result_fail_shape _ (by decide)
  · exact err_result_fail_shape _ (append4_ne_empty "No path found between " s " and " t (by decide))
  · exact err_result_fail_shape _ (by decide)
  · exact err_result_fail_shape _ (by decide)

theorem find_path_dijkstra_shape (g : WGraph) (s t : Node) :
    (find_path_dijkstra g s t).success = true ∨ FailShape (find_path_dijkstra g s t) := by
  unfold find_path_dijkstra
  cases hsp : shortest_path_w g s t with
  | error e => exact Or.inr (dispatch_error_fail_shape s t e)
  | ok p =>
    cases hsl : shortest_path_length_w g s t with
    | error e => exact Or.inr (dispatch_error_fail_shape s t e)
    | ok d => exact Or.inl rfl

theorem find_path_astar_shape (g : WGraph) (s t : Node) :
    (find_path_astar g s t).success = true ∨ FailShape (find_path_astar g s t) := by
  unfold find_path_astar
  cases hsp : astar_path g s t with
  | error e => exact Or.inr (dispatch_error_fail_shape s t e)
  | ok p => exact Or.inl rfl

theorem find_path_bfs_shape (g : WGraph) (s t : Node) :
    (find_path_bfs g s t).success = true ∨ FailShape (find_path_bfs g s t) := by
  unfold find_path_bfs
  cases hsp : bfs_path g s t with
  | error e => exact Or.inr (dispatch_error_fail_shape s t e)
  | ok p => exact Or.inl rfl

/-- C10.  `find_path` always yields a result dict, and every failure dict
has `success=false`, `path=[]`, `distance=0` and a non-empty error
message, for every graph, endpoint pair and algorithm string. -/
theorem find_path_total_failure_shape (g : WGraph) (s t : Node) (alg : String) :
    (find_path g s t alg).success = true ∨ FailShape (find_path g s t alg) := by
  unfold find_path
  split
  · exact Or.inr (err_result_fail_shape _
      (append3_ne_empty "Starting room " s " not found" (by decide)))
  · split
    · exact Or.inr (err_result_fail_shape _
        (append3_ne_empty "Destination room " t " not found" (by decide)))
    · split
      · exact Or.inl rfl
      · split
        · exact find_path_dijkstra_shape g s t
        · split
          · exact find_path_astar_shape g s t
          · split
            · exact find_path_bfs_shape g s t
            · exact Or.inr (err_result_fail_shape _
                (append2_ne_empty "Unknown algorithm: " alg (by decide)))

/-! # Claim C7 -/

/-- Every `door`-typed edge of a graph weighs 0. -/
def DoorZero (g : BGraph) : Prop :=
  ∀ e ∈ g.edges, e.etype = "door" → e.weight = 0

/-- A door's degenerate self-distance is zero. -/
theorem calculate_distance_self (p : ℤ × ℤ) : calculate_distance p p = 0 := by
  unfold calculate_distance
  simp

theorem badd_edge_doorzero {g : BGraph} (u v : Node) (ty : String) (w : ℝ)
    (did : Option String) (pos : Option (ℤ × ℤ)) (hg : DoorZero g)
    (hw : ty = "door" → w = 0) :
    DoorZero (g.badd_edge u v ty w did pos) := by
  intro e he hd
  unfold BGraph.badd_edge at he
  simp only at he
  by_cases hbe : g.bhas_edge u v = true
  · rw [if_pos hbe] at he
    obtain ⟨e0, he0, rfl⟩ := List.mem_map.mp he
    by_cases hm : ((e0.a == u && e0.b == v) || (e0.a == v && e0.b == u)) = true
    · rw [if_pos hm] at hd ⊢
      exact hw hd
    · rw [if_neg hm] at hd ⊢
      exact hg e0 he0 hd
  · rw [if_neg hbe] at he
    rcases List.mem_append.mp he with h0 | h1
    · exact hg e h0 hd
    · have he1 : e = BEdge.mk u v ty w did pos := by simpa using h1
      subst he1
      exact hw hd

theorem add_room_node_doorzero {g : BGraph} (n : BNode) (hg : DoorZero g) :
    DoorZero (g.add_room_node n) := by
  unfold BGraph.add_room_node
  split <;> exact hg

theorem add_room_nodes_doorzero {g : BGraph} (fd : FloorData) (hg : DoorZero g) :
    DoorZero (add_room_nodes g fd) := by
  unfold add_room_nodes
  cases fd.rooms with
  | none => exact hg
  | some rooms =>
    induction rooms generalizing g with
    | nil => exact hg
    | cons r rs ih => exact ih (add_room_node_doorzero _ hg)

theorem add_door_step_doorzero {g : BGraph} (d : Door) (hg : DoorZero g) :
    DoorZero (add_door_step g d) := by
  unfold add_door_step
  cases hc : d.connects with
  | none => exact hg
  | some conn =>
    simp only
    by_cases h2 : conn.length = 2
    · rw [dif_pos h2]
      exact badd_edge_doorzero _ _ _ _ _ _ hg
        (fun _ => calculate_distance_self d.position)
    · rw [dif_neg h2]
      exact hg

theorem add_door_connections_doorzero {g : BGraph} (fd : FloorData) (hg : DoorZero g) :
    DoorZero (add_door_connections g fd) := by
  unfold add_door_connections
  cases fd.doors with
  | none => exact hg
  | some doors =>
    induction doors generalizing g with
    | nil => exact hg
    | cons d ds ih => exact ih (add_door_step_doorzero d hg)

theorem corridor_step_doorzero {g : BGraph} (r1 r2 : Room) (hg : DoorZero g) :
    DoorZero (corridor_step r1 g r2) := by
  unfold corridor_step
  by_cases hbe : g.bhas_edge r1.id r2.id = true
  · rw [if_pos hbe]; exact hg
  · rw [if_neg hbe]
    simp only
    by_cases hlt : calculate_distance r1.center r2.center < 200
    · rw [if_pos hlt]
      exact badd_edge_doorzero _ _ _ _ _ _ hg (fun hc => absurd hc (by decide))
    · rw [if_neg hlt]
      exact hg

theorem corridor_pairs_doorzero {g : BGraph} (rooms : List Room) (hg : DoorZero g) :
    DoorZero (corridor_pairs g rooms) := by
  induction rooms generalizing g with
  | nil => exact hg
  | cons r rs ih =>
    refine ih ?_
    clear ih
    induction rs generalizing g with
    | nil => exact hg
    | cons r2 rs2 ih2 => exact ih2 (corridor_step_doorzero r r2 hg)

/-- `add_corridor_connections` preserves `DoorZero` (wrapper around the
pair loop). -/
theorem add_corridor_connections_doorzero (fd : FloorData) {g : BGraph}
    (hg : DoorZero g) : DoorZero (add_corridor_connections g fd) := by
  unfold add_corridor_connections
  cases fd.rooms with
  | none => exact hg
  | some rooms => exact corridor_pairs_doorzero rooms hg

/-- C7.  In every graph `build_graph` produces, every `door`-typed edge has
weight `_calculate_distance(position, position) = 0`; and every door whose
`connects` entry is absent or does not list exactly two rooms is skipped
without error (the build step leaves the graph unchanged). -/
theorem door_edges_weight_zero_and_skip :
    (∀ fd G, build_graph fd = .ok G → ∀ e ∈ G.edges, e.etype = "door" → e.weight = 0) ∧
      ∀ G d, (∀ conn, d.connects = some conn → conn.length ≠ 2) →
        add_door_step G d = G := by
  constructor
  · intro fd G hbuild
    unfold build_graph at hbuild
    split at hbuild
    · exact absurd hbuild (by simp)
    · injection hbuild with hG
      subst hG
      exact add_corridor_connections_doorzero fd
        (add_door_connections_doorzero fd
          (add_room_nodes_doorzero fd (fun e he => absurd he (by simp))))
  · intro G d hskip
    unfold add_door_step
    cases hc : d.connects with
    | none => rfl
    | some conn =>
      simp only
      rw [dif_neg (hskip conn hc)]

/-- Witness for C7: a floor with one two-room door (whose edge weighs 0)
and one skipped three-way door. -/
def fdW : FloorData :=
  { rooms := some [⟨"101", "Room 101", (100, 100), (50, 50, 100, 100)⟩,
      ⟨"102", "Room 102", (900, 100), (850, 50, 100, 100)⟩],
    doors := some [⟨"d1", (200, 100), some ["101", "102"]⟩] }

/-- A door listing three rooms, which the builder must skip. -/
def door3 : Door := ⟨"d3", (0, 0), some ["101", "102", "103"]⟩

theorem door_edges_weight_zero_and_skip_witness :
    (∀ G, build_graph fdW = .ok G → ∀ e ∈ G.edges, e.etype = "door" → e.weight = 0) ∧
      add_door_step (BGraph.mk [] []) door3 = BGraph.mk [] [] :=
  ⟨fun G hG => door_edges_weight_zero_and_skip.1 fdW G hG,
    door_edges_weight_zero_and_skip.2 (BGraph.mk [] []) door3
      (fun conn hconn => by
        rw [show conn = ["101", "102", "103"] by
          simpa [door3] using hconn.symm]
        decide)⟩

/-! # Claim C6 -/

/-- Some node of the list carries the given id. -/
def idmem (ns : List BNode) (v : Node) : Prop := ∃ n ∈ ns, n.id = v

/-- Every edge's endpoints name nodes of the graph. -/
def EndpointsOk (g : BGraph) : Prop :=
  ∀ e ∈ g.edges, idmem g.nodes e.a ∧ idmem g.nodes e.b

theorem binsert_node_mono {ns : List BNode} {v' : Node} (v : Node)
    (h : idmem ns v') : idmem (BGraph.binsert_node ns v) v' := by
  unfold BGraph.binsert_node
  split
  · exact h
  · obtain ⟨n, hn, hid⟩ := h
    exact ⟨n, List.mem_append.mpr (Or.inl hn), hid⟩

theorem binsert_node_self (ns : List BNode) (v : Node) :
    idmem (BGraph.binsert_node ns v) v := by
  unfold BGraph.binsert_node
  split
  · next hany =>
    obtain ⟨n, hn, hid⟩ := List.any_eq_true.mp hany
    exact ⟨n, hn, by simpa using hid⟩
  · exact ⟨{ id := v }, by simp, rfl⟩

theorem add_room_node_mono {g : BGraph} (n : BNode) {v' : Node}
    (h : idmem g.nodes v') : idmem (g.add_room_node n).nodes v' := by
  obtain ⟨m, hm, hid⟩ := h
  unfold BGraph.add_room_node
  split
  · simp only
    by_cases hmn : (m.id == n.id) = true
    · refine ⟨n, List.mem_map.mpr ⟨m, hm, by rw [if_pos hmn]⟩, ?_⟩
      have hmn' : m.id = n.id := by simpa using hmn
      rw [← hmn', hid]
    · exact ⟨m, List.mem_map.mpr ⟨m, hm, by rw [if_neg hmn]⟩, hid⟩
  · exact ⟨m, List.mem_append.mpr (Or.inl hm), hid⟩

theorem add_room_node_endpoints {g : BGraph} (n : BNode) (h : EndpointsOk g) :
    EndpointsOk (g.add_room_node n) := by
  have hedges : (g.add_room_node n).edges = g.edges := by
    unfold BGraph.add_room_node
    split <;> rfl
  intro e he
  rw [hedges] at he
  exact ⟨add_room_node_mono n (h e he).1, add_room_node_mono n (h e he).2⟩

theorem badd_edge_endpoints {g : BGraph} (u v : Node) (ty : String) (w : ℝ)
    (did : Option String) (pos : Option (ℤ × ℤ)) (h : EndpointsOk g) :
    EndpointsOk (g.badd_edge u v ty w did pos) := by
  intro e he
  unfold BGraph.badd_edge at he ⊢
  simp only at he ⊢
  by_cases hbe : g.bhas_edge u v = true
  · rw [if_pos hbe] at he
    obtain ⟨e0, he0, rfl⟩ := List.mem_map.mp he
    have h0 := h e0 he0
    by_cases hm : ((e0.a == u && e0.b == v) || (e0.a == v && e0.b == u)) = true
    · rw [if_pos hm]
      exact ⟨binsert_node_mono v (binsert_node_mono u h0.1),
        binsert_node_mono v (binsert_node_mono u h0.2)⟩
    · rw [if_neg hm]
      exact ⟨binsert_node_mono v (binsert_node_mono u h0.1),
        binsert_node_mono v (binsert_node_mono u h0.2)⟩
  · rw [if_neg hbe] at he
    rcases List.mem_append.mp he with h0 | h1
    · exact ⟨binsert_node_mono v (binsert_node_mono u (h e h0).1),
        binsert_node_mono v (binsert_node_mono u (h e h0).2)⟩
    · have he1 : e = BEdge.mk u v ty w did pos := by simpa using h1
      subst he1
      exact ⟨binsert_node_mono v (binsert_node_self g.nodes u),
        binsert_node_self (BGraph.binsert_node g.nodes u) v⟩

theorem add_room_nodes_endpoints {g : BGraph} (fd : FloorData)
    (h : EndpointsOk g) : EndpointsOk (add_room_nodes g fd) := by
  unfold add_room_nodes
  cases fd.rooms with
  | none => exact h
  | some rooms =>
    induction rooms generalizing g with
    | nil => exact h
    | cons r rs ih => exact ih (add_room_node_endpoints _ h)

theorem add_door_step_endpoints {g : BGraph} (d : Door) (h : EndpointsOk g) :
    EndpointsOk (add_door_step g d) := by
  unfold add_door_step
  cases hc : d.connects with
  | none => exact h
  | some conn =>
    simp only
    by_cases h2 : conn.length = 2
    · rw [dif_pos h2]
      exact badd_edge_endpoints _ _ _ _ _ _ h
    · rw [dif_neg h2]
      exact h

theorem add_door_connections_endpoints {g : BGraph} (fd : FloorData)
    (h : EndpointsOk g) : EndpointsOk (add_door_connections g fd) := by
  unfold add_door_connections
  cases fd.doors with
  | none => exact h
  | some doors =>
    induction doors generalizing g with
    | nil => exact h
    | cons d ds ih => exact ih (add_door_step_endpoints d h)

theorem corridor_step_endpoints {g : BGraph} (r1 r2 : Room) (h : EndpointsOk g) :
    EndpointsOk (corridor_step r1 g r2) := by
  unfold corridor_step
  by_cases hbe : g.bhas_edge r1.id r2.id = true
  · rw [if_pos hbe]; exact h
  · rw [if_neg hbe]
    simp only
    by_cases hlt : calculate_distance r1.center r2.center < 200
    · rw [if_pos hlt]
      exact badd_edge_endpoints _ _ _ _ _ _ h
    · rw [if_neg hlt]
      exact h

theorem corridor_pairs_endpoints {g : BGraph} (rooms : List Room)
    (h : EndpointsOk g) : EndpointsOk (corridor_pairs g rooms) := by
  induction rooms generalizing g with
  | nil => exact h
  | cons r rs ih =>
    refine ih ?_
    clear ih
    induction rs generalizing g with
    | nil => exact h
    | cons r2 rs2 ih2 => exact ih2 (corridor_step_endpoints r r2 h)

theorem add_corridor_connections_endpoints (fd : FloorData) {g : BGraph}
    (h : EndpointsOk g) : EndpointsOk (add_corridor_connections g fd) := by
  unfold add_corridor_connections
  cases fd.rooms with
  | none => exact h
  | some rooms => exact corridor_pairs_endpoints rooms h

/-- C6 (amended).  Every edge of a built graph does join nodes of the
graph — but not because insertion fails on unknown endpoints: networkx
`add_edge` silently inserts any missing endpoint as a bare node. -/
theorem built_edges_endpoints_exist (fd : FloorData) (G : BGraph)
    (hbuild : build_graph fd = .ok G) :
    ∀ e ∈ G.edges, idmem G.nodes e.a ∧ idmem G.nodes e.b := by
  unfold build_graph at hbuild
  split at hbuild
  · exact absurd hbuild (by simp)
  · injection hbuild with hG
    subst hG
    exact add_corridor_connections_endpoints fd
      (add_door_connections_endpoints fd
        (add_room_nodes_endpoints fd (fun e he => absurd he (by simp))))

/-- A floor with one room and a door that names an unknown room id `X`. -/
def fdX : FloorData :=
  { rooms := some [⟨"R1", "Room 1", (0, 0), (0, 0, 10, 10)⟩],
    doors := some [⟨"d1", (5, 5), some ["R1", "X"]⟩] }

/-- C6 (counterexample).  Building `fdX` silently adds the unknown room id
`X` as a node of the graph (insertion does not fail), refuting the claim
that unknown endpoints are not silently added. -/
theorem door_unknown_room_adds_node :
    (build_graph fdX).map (fun G => G.nodes.map BNode.id) = .ok ["R1", "X"] ∧
      "X" ∉ (fdX.rooms.getD []).map Room.id := by
  exact ⟨rfl, by decide⟩

/-- The graph built from `fdX`. -/
noncomputable def GX : BGraph :=
  add_corridor_connections
    (add_door_connections (add_room_nodes (BGraph.mk [] []) fdX) fdX) fdX

/-- The door edge built from `fdX`. -/
noncomputable def eX : BEdge :=
  BEdge.mk "R1" "X" "door" (calculate_distance (5, 5) (5, 5)) (some "d1") (some (5, 5))

/-- Witness for the amended C6 at `fdX`. -/
theorem built_edges_endpoints_exist_witness :
    build_graph fdX = .ok GX ∧ eX ∈ GX.edges ∧
      idmem GX.nodes eX.a ∧ idmem GX.nodes eX.b := by
  have hmem : eX ∈ GX.edges := List.mem_singleton_self eX
  exact ⟨rfl, hmem, (built_edges_endpoints_exist fdX GX rfl eX hmem).1,
    (built_edges_endpoints_exist fdX GX rfl eX hmem).2⟩

/-! # Claim C8 -/

/-- Adjacency membership yields an edge. -/
theorem has_edge_of_mem_neighbors {g : WGraph} {u v : Node}
    (h : v ∈ g.neighbors u) : g.has_edge u v = true := by
  unfold WGraph.neighbors at h
  obtain ⟨e, he, hfe⟩ := List.mem_filterMap.mp h
  unfold WGraph.has_edge
  apply List.any_eq_true.mpr
  refine ⟨e, he, ?_⟩
  unfold WGraph.edge_matches
  by_cases h1 : e.1 = u
  · rw [if_pos h1] at hfe
    injection hfe with hv
    simp [h1, hv]
  · rw [if_neg h1] at hfe
    by_cases h2 : e.2.1 = u
    · rw [if_pos h2] at hfe
      injection hfe with hv
      simp [h2, hv]
    · rw [if_neg h2] at hfe
      exact absurd hfe (by simp)

/-- Soundness of the simple-path enumeration: every emitted continuation is
an edge chain ending at `t`, uses at most `fuel` edges, repeats no node,
and avoids the visited set (except at `t`). -/
theorem simple_paths_from_sound (g : WGraph) (t : Node) :
    ∀ (fuel : ℕ) (u : Node) (visited : List Node) (p : List Node),
      p ∈ simple_paths_from g t fuel u visited →
      List.Chain (fun a b => g.has_edge a b = true) u p ∧
        p.length ≤ fuel ∧ p.getLast? = some t ∧ p.Nodup ∧
        ∀ x ∈ p, x = t ∨ x ∉ visited := by
  intro fuel
  induction fuel with
  | zero =>
    intro u visited p hp
    exact absurd hp (by simp [simple_paths_from])
  | succ fuel ih =>
    intro u visited p hp
    unfold simple_paths_from at hp
    obtain ⟨v, hv, hpv⟩ := List.mem_flatMap.mp hp
    by_cases hvt : v = t
    · subst hvt
      rw [if_pos rfl] at hpv
      have hp1 : p = [v] := by simpa using hpv
      subst hp1
      refine ⟨List.Chain.cons (has_edge_of_mem_neighbors hv) List.Chain.nil,
        by simp, by simp, by simp, ?_⟩
      intro x hx
      left
      simpa using hx
    · rw [if_neg hvt] at hpv
      by_cases hvis : visited.contains v
      · rw [if_pos hvis] at hpv
        exact absurd hpv (by simp)
      · rw [if_neg hvis] at hpv
        obtain ⟨q, hq, rfl⟩ := List.mem_map.mp hpv
        obtain ⟨hch, hlen, hlast, hnd, hmem⟩ := ih v (visited ++ [v]) q hq
        have hqnil : q ≠ [] := by
          intro h0
          rw [h0] at hlast
          simp at hlast
        obtain ⟨b, l', rfl⟩ := List.exists_cons_of_ne_nil hqnil
        refine ⟨List.Chain.cons (has_edge_of_mem_neighbors hv) hch,
          by simpa using Nat.succ_le_succ hlen, by simpa using hlast, ?_, ?_⟩
        · refine List.nodup_cons.mpr ⟨?_, hnd⟩
          intro hvq
          rcases hmem v hvq with h1 | h2
          · exact hvt h1
          · exact h2 (by simp)
        · intro x hx
          rcases List.mem_cons.mp hx with rfl | hxq
          · right
            simpa using hvis
          · rcases hmem x hxq with h1 | h2
            · exact Or.inl h1
            · right
              intro hxv
              exact h2 (List.mem_append.mpr (Or.inl hxv))

/-- A (not necessarily simple) walk from `s` to `t` along edges of `g`. -/
def is_path_between (g : WGraph) (s t : Node) (l : List Node) : Prop :=
  ∃ q, l = s :: q ∧ List.Chain (fun a b => g.has_edge a b = true) s q ∧
    l.getLast? = some t

/-- Every enumerated simple path is a genuine simple path from `s` to `t`
with at most `cutoff` edges. -/
theorem all_simple_paths_sound (g : WGraph) (s t : Node) (cutoff : ℕ) :
    ∀ p ∈ all_simple_paths g s t cutoff,
      is_path_between g s t p ∧ p.Nodup ∧ p.length ≤ cutoff + 1 := by
  intro p hp
  unfold all_simple_paths at hp
  by_cases hst : s = t
  · rw [if_pos hst] at hp
    exact absurd hp (by simp)
  · rw [if_neg hst] at hp
    obtain ⟨q, hq, rfl⟩ := List.mem_map.mp hp
    obtain ⟨hch, hlen, hlast, hnd, hmem⟩ :=
      simple_paths_from_sound g t cutoff s [s] q hq
    have hqnil : q ≠ [] := by
      intro h0
      rw [h0] at hlast
      simp at hlast
    obtain ⟨b, l', rfl⟩ := List.exists_cons_of_ne_nil hqnil
    refine ⟨⟨b :: l', rfl, hch, by simpa using hlast⟩, ?_, by simpa using Nat.succ_le_succ hlen⟩
    refine List.nodup_cons.mpr ⟨?_, hnd⟩
    intro hsq
    rcases hmem s hsq with h1 | h2
    · exact hst h1
    · exact h2 (by simp)

theorem mem_insert_by_len {p x : List Node} {l : List (List Node)} :
    x ∈ insert_by_len p l ↔ x = p ∨ x ∈ l := by
  induction l with
  | nil => simp [insert_by_len]
  | cons q qs ih =>
    unfold insert_by_len
    by_cases hle : p.length ≤ q.length
    · rw [if_pos hle]
      simp
    · rw [if_neg hle]
      rw [List.mem_cons, ih, List.mem_cons]
      tauto

theorem pairwise_insert_by_len {p : List Node} {l : List (List Node)}
    (h : l.Pairwise (fun a b => a.length ≤ b.length)) :
    (insert_by_len p l).Pairwise (fun a b => a.length ≤ b.length) := by
  induction l with
  | nil => simp [insert_by_len]
  | cons q qs ih =>
    unfold insert_by_len
    have hq := List.pairwise_cons.mp h
    by_cases hle : p.length ≤ q.length
    · rw [if_pos hle]
      refine List.pairwise_cons.mpr ⟨?_, h⟩
      intro b hb
      rcases List.mem_cons.mp hb with rfl | hbq
      · exact hle
      · exact le_trans hle (hq.1 b hbq)
    · rw [if_neg hle]
      refine List.pairwise_cons.mpr ⟨?_, ih hq.2⟩
      intro b hb
      rcases mem_insert_by_len.mp hb with rfl | hbq
      · exact le_of_not_le hle
      · exact hq.1 b hbq

theorem sort_by_len_sorted (l : List (List Node)) :
    (sort_by_len l).Pairwise (fun a b => a.length ≤ b.length) := by
  unfold sort_by_len
  induction l with
  | nil => simp
  | cons p ps ih => exact pairwise_insert_by_len ih

theorem mem_sort_by_len {x : List Node} {l : List (List Node)} :
    x ∈ sort_by_len l ↔ x ∈ l := by
  unfold sort_by_len
  induction l with
  | nil => simp
  | cons p ps ih =>
    simp only [List.foldr_cons, mem_insert_by_len, List.mem_cons]
    rw [ih]

/-- C8.  `find_all_paths` returns only node-disjoint (simple) paths, its
results are sorted ascending by hop count (`steps`), it returns `[]` when
either endpoint is missing, and it returns `[]` when no simple path of at
most 10 edges (11 nodes) exists. -/
theorem find_all_paths_props (g : WGraph) (s t : Node) :
    (∀ r ∈ find_all_paths g s t, r.path.Nodup) ∧
      List.Pairwise (fun a b => a.steps ≤ b.steps) (find_all_paths g s t) ∧
      (¬ (g.has_node s = true ∧ g.has_node t = true) → find_all_paths g s t = []) ∧
      ((¬ ∃ l, is_path_between g s t l ∧ l.Nodup ∧ l.length ≤ 11) →
        find_all_paths g s t = []) := by
  by_cases hcond : (¬ g.has_node s = true ∨ ¬ g.has_node t = true)
  · unfold find_all_paths
    rw [if_pos hcond]
    refine ⟨by simp, by simp, fun _ => rfl, fun _ => rfl⟩
  · have hres : find_all_paths g s t =
        ((sort_by_len (all_simple_paths g s t 10)).take 5).map (fun p =>
          { success := true, path := p, distance := calculate_path_distance g p,
            steps := p.length - 1 }) := by
      unfold find_all_paths
      rw [if_neg hcond]
    refine ⟨?_, ?_, ?_, ?_⟩
    · intro r hr
      rw [hres] at hr
      obtain ⟨p, hp, rfl⟩ := List.mem_map.mp hr
      have hp2 : p ∈ all_simple_paths g s t 10 :=
        mem_sort_by_len.mp (List.mem_of_mem_take hp)
      exact (all_simple_paths_sound g s t 10 p hp2).2.1
    · rw [hres]
      apply List.Pairwise.map
      · intro a b hab
        exact Nat.sub_le_sub_right hab 1
      · exact ((sort_by_len_sorted (all_simple_paths g s t 10)).sublist
          (List.take_sublist 5 _))
    · intro hmiss
      exact absurd (by tauto) hcond
    · intro hnp
      have hasp : all_simple_paths g s t 10 = [] := by
        cases hcase : all_simple_paths g s t 10 with
        | nil => rfl
        | cons p ps =>
          exfalso
          apply hnp
          have hsp := all_simple_paths_sound g s t 10 p (by rw [hcase]; simp)
          exact ⟨p, hsp.1, hsp.2.1, by have := hsp.2.2; omega⟩
      rw [hres, hasp]
      rfl

/-- Witness for C8 at `G4`. -/
theorem find_all_paths_props_witness :
    (APResult.mk true ["A", "D"] 4 1) ∈ find_all_paths G4 "A" "D" ∧
      (APResult.mk true ["A", "D"] 4 1).path.Nodup :=
  ⟨by decide, (find_all_paths_props G4 "A" "D").1 _ (by decide)⟩

/-! # Claim C9: correctness of the embedded Dijkstra run

Association-list (dict) lemmas. -/

theorem alook_cons {β : Type} (p : Node × β) (l : AList β) (k : Node) :
    alook (p :: l) k = if (p.1 == k) = true then some p.2 else alook l k := by
  unfold alook
  rw [List.find?_cons]
  cases h : (p.1 == k) with
  | true => simp
  | false => simp

theorem alook_eq_none_iff {β : Type} {l : AList β} {k : Node} :
    alook l k = none ↔ ∀ p ∈ l, p.1 ≠ k := by
  unfold alook
  rw [Option.map_eq_none', List.find?_eq_none]
  constructor
  · intro h p hp
    simpa using h p hp
  · intro h p hp
    simpa using h p hp

theorem mem_of_alook_eq_some {β : Type} {l : AList β} {k : Node} {b : β}
    (h : alook l k = some b) : (k, b) ∈ l := by
  unfold alook at h
  obtain ⟨p, hfind, hpb⟩ := Option.map_eq_some'.mp h
  have hmem := List.mem_of_find?_eq_some hfind
  have hkey := List.find?_some hfind
  have hk : p.1 = k := by simpa using hkey
  have hp : p = (k, b) := by
    cases p
    simp only at hk hpb
    rw [hk, hpb]
  rwa [hp] at hmem

theorem alook_isSome_of_mem {β : Type} {l : AList β} {k : Node} {b : β}
    (h : (k, b) ∈ l) : (alook l k).isSome := by
  unfold alook
  rw [Option.isSome_map']
  rw [List.find?_isSome]
  exact ⟨(k, b), h, by simp⟩

theorem aset_of_alook_none {β : Type} {l : AList β} {k : Node} (v : β)
    (h : alook l k = none) : aset l k v = l ++ [(k, v)] := by
  unfold aset
  rw [if_neg]
  rw [alook_eq_none_iff] at h
  intro hany
  obtain ⟨p, hp, hpk⟩ := List.any_eq_true.mp hany
  exact h p hp (by simpa using hpk)

theorem alook_append_single_self {β : Type} (l : AList β) (k : Node) (v : β)
    (h : alook l k = none) : alook (l ++ [(k, v)]) k = some v := by
  have hf : l.find? (fun p => p.1 == k) = none := by
    unfold alook at h
    exact Option.map_eq_none'.mp h
  unfold alook
  rw [List.find?_append, hf, Option.none_or, List.find?_cons]
  simp

theorem alook_append_single_ne {β : Type} (l : AList β) (k x : Node) (v : β)
    (hx : x ≠ k) : alook (l ++ [(k, v)]) x = alook l x := by
  unfold alook
  rw [List.find?_append]
  cases hf : l.find? (fun p => p.1 == x) with
  | some p => simp
  | none =>
    simp only [Option.none_or]
    rw [List.find?_cons]
    have hkx : ((k, v).1 == x) = false := by simpa using fun h => hx h.symm
    rw [hkx]
    simp

theorem mem_aset {β : Type} {l : AList β} {k : Node} {v : β} {q : Node × β}
    (h : q ∈ aset l k v) : q = (k, v) ∨ (q ∈ l ∧ q.1 ≠ k) := by
  unfold aset at h
  split at h
  · obtain ⟨p, hp, hpq⟩ := List.mem_map.mp h
    by_cases hpk : (p.1 == k) = true
    · rw [if_pos hpk] at hpq
      exact Or.inl hpq.symm
    · rw [if_neg hpk] at hpq
      subst hpq
      exact Or.inr ⟨hp, by simpa using hpk⟩
  · next hany =>
    rcases List.mem_append.mp h with h1 | h2
    · refine Or.inr ⟨h1, fun hqk => ?_⟩
      exact hany (List.any_eq_true.mpr ⟨q, h1, by simpa using hqk⟩)
    · exact Or.inl (by simpa using h2)

theorem alook_map_update_self {β : Type} {l : AList β} {k : Node} (v : β)
    (hany : l.any (fun p => p.1 == k) = true) :
    alook (l.map (fun p => if p.1 == k then (k, v) else p)) k = some v := by
  induction l with
  | nil => simp at hany
  | cons p ps ih =>
    simp only [List.map_cons]
    by_cases hpk : (p.1 == k) = true
    · rw [if_pos hpk, alook_cons]
      simp
    · rw [if_neg hpk, alook_cons, if_neg (by simpa using hpk)]
      have hany2 : ps.any (fun p => p.1 == k) = true := by
        rcases List.any_eq_true.mp hany with ⟨q, hq, hqk⟩
        rcases List.mem_cons.mp hq with rfl | hq2
        · exact absurd hqk hpk
        · exact List.any_eq_true.mpr ⟨q, hq2, hqk⟩
      exact ih hany2

theorem alook_map_update_ne {β : Type} {l : AList β} {k x : Node} (v : β)
    (hx : x ≠ k) :
    alook (l.map (fun p => if p.1 == k then (k, v) else p)) x = alook l x := by
  induction l with
  | nil => rfl
  | cons p ps ih =>
    simp only [List.map_cons]
    by_cases hpk : (p.1 == k) = true
    · rw [if_pos hpk, alook_cons, alook_cons]
      have h1 : (((k, v) : Node × β).1 == x) = false := by
        simpa using fun h => hx h.symm
      have h2 : (p.1 == x) = false := by
        have hpk2 : p.1 = k := by simpa using hpk
        simpa [hpk2] using fun h => hx h.symm
      rw [h1, h2]
      simpa using ih
    · rw [if_neg hpk, alook_cons, alook_cons]
      by_cases hpx : (p.1 == x) = true
      · rw [if_pos hpx, if_pos hpx]
      · rw [if_neg hpx, if_neg hpx]
        exact ih

theorem alook_aset_self {β : Type} (l : AList β) (k : Node) (v : β) :
    alook (aset l k v) k = some v := by
  unfold aset
  split
  · next hany => exact alook_map_update_self v hany
  · next hany =>
    apply alook_append_single_self
    rw [alook_eq_none_iff]
    intro p hp hpk
    exact hany (List.any_eq_true.mpr ⟨p, hp, by simpa using hpk⟩)

theorem alook_aset_ne {β : Type} (l : AList β) (k x : Node) (v : β)
    (hx : x ≠ k) : alook (aset l k v) x = alook l x := by
  unfold aset
  split
  · exact alook_map_update_ne v hx
  · exact alook_append_single_ne l k x v hx
/-! Heap-pop lemmas. -/

theorem entry_lt_iff (a b : HEntry) :
    entry_lt a b = true ↔ (a.1 < b.1 ∨ (a.1 = b.1 ∧ a.2.1 < b.2.1)) := by
  unfold entry_lt
  simp [Bool.or_eq_true, Bool.and_eq_true]

theorem entry_lt_false_le {e m : HEntry} (h : entry_lt e m = false) : m.1 ≤ e.1 := by
  have hlt := (not_iff_not.mpr (entry_lt_iff e m)).mp (by simp [h])
  push_neg at hlt
  exact hlt.1

theorem entry_lt_false_trans {x m e : HEntry}
    (h1 : entry_lt x m = false) (h2 : entry_lt m e = false) :
    entry_lt x e = false := by
  have hx := (not_iff_not.mpr (entry_lt_iff x m)).mp (by simp [h1])
  have hm := (not_iff_not.mpr (entry_lt_iff m e)).mp (by simp [h2])
  cases hxe : entry_lt x e with
  | false => rfl
  | true =>
    have hc := (entry_lt_iff x e).mp hxe
    push_neg at hx hm
    have h3 := hx.2
    have h4 := hm.2
    rcases hc with h5 | ⟨h5, h6⟩ <;> omega

theorem pop_min_eq_none_iff (l : List HEntry) : pop_min l = none ↔ l = [] := by
  cases l with
  | nil => simp [pop_min]
  | cons e es =>
    simp only [pop_min]
    cases pop_min es with
    | none => simp
    | some p =>
      obtain ⟨m, rest⟩ := p
      by_cases h : entry_lt m e = true
      · simp [h]
      · simp [h]

theorem pop_min_spec : ∀ (l : List HEntry) (m : HEntry) (rest : List HEntry),
    pop_min l = some (m, rest) →
    l.Perm (m :: rest) ∧ ∀ e ∈ rest, entry_lt e m = false := by
  intro l
  induction l with
  | nil => intro m rest h; exact absurd h (by simp [pop_min])
  | cons e es ih =>
    intro m rest h
    simp only [pop_min] at h
    cases hes : pop_min es with
    | none =>
      rw [hes] at h
      simp only at h
      have hnil : es = [] := (pop_min_eq_none_iff es).mp hes
      injection h with h1
      injection h1 with hm hrest
      subst hm
      subst hrest
      subst hnil
      exact ⟨List.Perm.refl _, by simp⟩
    | some p =>
      obtain ⟨m0, rest0⟩ := p
      rw [hes] at h
      simp only at h
      obtain ⟨hperm0, hmin0⟩ := ih m0 rest0 hes
      by_cases hlt : entry_lt m0 e = true
      · rw [if_pos hlt] at h
        have hp := Option.some.inj h
        have hm : m0 = m := congrArg Prod.fst hp
        have hr : e :: rest0 = rest := congrArg Prod.snd hp
        rw [← hm, ← hr]
        constructor
        · exact List.Perm.trans (List.Perm.cons e hperm0) (List.Perm.swap m0 e rest0)
        · intro x hx
          rcases List.mem_cons.mp hx with hxe | hx2
          · rw [hxe]
            cases he2 : entry_lt e m0 with
            | false => rfl
            | true =>
              exfalso
              have hc1 := (entry_lt_iff m0 e).mp hlt
              have hc2 := (entry_lt_iff e m0).mp he2
              rcases hc1 with h5 | ⟨h5, h6⟩ <;> rcases hc2 with h7 | ⟨h7, h8⟩ <;> omega
          · exact hmin0 x hx2
      · rw [if_neg hlt] at h
        have hp := Option.some.inj h
        have hm : e = m := congrArg Prod.fst hp
        have hr : es = rest := congrArg Prod.snd hp
        rw [← hm, ← hr]
        refine ⟨List.Perm.refl _, ?_⟩
        intro x hx
        have hx2 : x ∈ m0 :: rest0 := hperm0.mem_iff.mp hx
        rcases List.mem_cons.mp hx2 with hxm | hx3
        · rw [hxm]
          simpa using hlt
        · exact entry_lt_false_trans (hmin0 x hx3) (by simpa using hlt)

/-! Graph and walk-weight lemmas. -/

theorem neighbors_subset_nodes {g : WGraph} (hwf : g.Wf) {u v : Node}
    (h : u ∈ g.neighbors v) : u ∈ g.nodes := by
  unfold WGraph.neighbors at h
  obtain ⟨e, he, hfe⟩ := List.mem_filterMap.mp h
  have hend := hwf.2.1 e he
  by_cases h1 : e.1 = v
  · rw [if_pos h1] at hfe
    injection hfe with hu
    exact hu ▸ hend.2
  · rw [if_neg h1] at hfe
    by_cases h2 : e.2.1 = v
    · rw [if_pos h2] at hfe
      injection hfe with hu
      exact hu ▸ hend.1
    · rw [if_neg h2] at hfe
      exact absurd hfe (by simp)

theorem mem_neighbors_of_has_edge {g : WGraph} {x y : Node}
    (h : g.has_edge x y = true) : y ∈ g.neighbors x := by
  unfold WGraph.has_edge at h
  obtain ⟨e, he, hm⟩ := List.any_eq_true.mp h
  have hm2 : (e.1 = x ∧ e.2.1 = y) ∨ (e.1 = y ∧ e.2.1 = x) := by
    simpa [WGraph.edge_matches] using hm
  unfold WGraph.neighbors
  apply List.mem_filterMap.mpr
  refine ⟨e, he, ?_⟩
  rcases hm2 with ⟨ha2, hb2⟩ | ⟨ha2, hb2⟩
  · rw [if_pos ha2, hb2]
  · by_cases hxy : e.1 = x
    · rw [if_pos hxy]
      rw [hxy] at ha2
      rw [hb2, ← ha2]
    · rw [if_neg hxy, if_pos hb2, ha2]

theorem edge_weight_mem {g : WGraph} {u v : Node} {w : ℤ}
    (h : g.edge_weight u v = some w) : ∃ e ∈ g.edges, e.2.2 = w := by
  unfold WGraph.edge_weight at h
  obtain ⟨e, hfind, hew⟩ := Option.map_eq_some'.mp h
  exact ⟨e, List.mem_of_find?_eq_some hfind, hew⟩

theorem edge_weight_getD_nonneg {g : WGraph} (hnn : ∀ e ∈ g.edges, 0 ≤ e.2.2)
    (u v : Node) : 0 ≤ (g.edge_weight u v).getD 1 := by
  cases hew : g.edge_weight u v with
  | none => simp
  | some w =>
    obtain ⟨e, he, hw⟩ := edge_weight_mem hew
    simpa [hw] using hnn e he

theorem foldl_add_map (l : List (Node × Node)) (f : Node × Node → ℤ) (acc : ℤ) :
    l.foldl (fun a uv => a + f uv) acc = acc + (l.map f).sum := by
  induction l generalizing acc with
  | nil => simp
  | cons x xs ih =>
    simp only [List.foldl_cons, List.map_cons, List.sum_cons]
    rw [ih]
    ring

theorem path_weight_sum_eq (g : WGraph) (l : List Node) :
    path_weight_sum g l = ((l.zip l.tail).map (fun uv => (g.edge_weight uv.1 uv.2).getD 1)).sum := by
  unfold path_weight_sum
  rw [foldl_add_map]
  ring

theorem path_weight_sum_cons (g : WGraph) (a b : Node) (r : List Node) :
    path_weight_sum g (a :: b :: r) =
      (g.edge_weight a b).getD 1 + path_weight_sum g (b :: r) := by
  rw [path_weight_sum_eq, path_weight_sum_eq]
  simp only [List.tail_cons, List.zip_cons_cons, List.map_cons, List.sum_cons]

theorem chain_weight_nonneg {g : WGraph} (hnn : ∀ e ∈ g.edges, 0 ≤ e.2.2) :
    ∀ (q : List Node) (x : Node), 0 ≤ path_weight_sum g (x :: q) := by
  intro q
  induction q with
  | nil =>
    intro x
    simp [path_weight_sum]
  | cons b r ih =>
    intro x
    rw [path_weight_sum_cons]
    have h1 := edge_weight_getD_nonneg hnn x b
    have h2 := ih b
    omega

theorem path_weight_sum_append_single (g : WGraph) :
    ∀ (l : List Node) (x y : Node), l.getLast? = some x →
      path_weight_sum g (l ++ [y]) =
        path_weight_sum g l + (g.edge_weight x y).getD 1 := by
  intro l
  induction l with
  | nil => intro x y h; simp at h
  | cons a r ih =>
    intro x y h
    cases r with
    | nil =>
      have hax : a = x := by simpa using h
      subst hax
      have hxy : ([a] : List Node) ++ [y] = [a, y] := rfl
      rw [hxy, path_weight_sum_cons]
      unfold path_weight_sum
      simp
    | cons b r2 =>
      have h2 : (b :: r2).getLast? = some x := by
        rw [← h]
        exact List.getLast?_cons_cons.symm
      have hsplit : (a :: b :: r2) ++ [y] = a :: b :: (r2 ++ [y]) := rfl
      rw [hsplit, path_weight_sum_cons g a b (r2 ++ [y])]
      have hih := ih x y h2
      have hsplit2 : (b :: r2) ++ [y] = b :: (r2 ++ [y]) := rfl
      rw [hsplit2] at hih
      rw [hih, path_weight_sum_cons g a b r2]
      ring
/-! Walks. -/

theorem is_path_between_singleton (g : WGraph) (s : Node) :
    is_path_between g s s [s] := ⟨[], rfl, List.Chain.nil, rfl⟩

theorem chain_append_single {R : Node → Node → Prop} :
    ∀ (q : List Node) (s x y : Node), List.Chain R s q →
      (s :: q).getLast? = some x → R x y → List.Chain R s (q ++ [y]) := by
  intro q
  induction q with
  | nil =>
    intro s x y _ hlast hr
    have hsx : s = x := by simpa using hlast
    subst hsx
    exact List.Chain.cons hr List.Chain.nil
  | cons b q2 ih =>
    intro s x y hch hlast hr
    rw [List.chain_cons] at hch
    have hlast2 : (b :: q2).getLast? = some x := by
      rw [← hlast]
      exact List.getLast?_cons_cons.symm
    exact List.Chain.cons hch.1 (ih b x y hch.2 hlast2 hr)

theorem walk_extend {g : WGraph} {s x y : Node} {l : List Node}
    (hl : is_path_between g s x l) (he : g.has_edge x y = true) :
    is_path_between g s y (l ++ [y]) ∧
      path_weight_sum g (l ++ [y]) =
        path_weight_sum g l + (g.edge_weight x y).getD 1 := by
  obtain ⟨q, rfl, hch, hlast⟩ := hl
  constructor
  · refine ⟨q ++ [y], rfl, chain_append_single q s x y hch hlast he, ?_⟩
    exact List.getLast?_concat (s :: q)
  · exact path_weight_sum_append_single g (s :: q) x y hlast

/-! The Dijkstra loop invariant (the `paths` dict and counters are not
tracked: `get_shortest_distance` reads only distances). -/

/-- The frontier condition: `u` is settled, or its best `seen` value is at
most `dx + w(x, u)`. -/
def FrontierAt (g : WGraph) (st : DijkState) (x : Node) (dx : ℤ) (u : Node) : Prop :=
  (alook st.dist u).isSome = true ∨
    ∃ sv, alook st.seen u = some sv ∧ sv ≤ dx + (g.edge_weight x u).getD 1

/-- Invariant of the `_dijkstra` loop. -/
structure DijkInv (g : WGraph) (s : Node) (st : DijkState) : Prop where
  fringe_nodes : ∀ e ∈ st.fringe, e.2.2 ∈ g.nodes
  fringe_sound : ∀ e ∈ st.fringe,
    ∃ l, is_path_between g s e.2.2 l ∧ path_weight_sum g l = e.1
  dist_sound : ∀ p ∈ st.dist,
    ∃ l, is_path_between g s p.1 l ∧ path_weight_sum g l = p.2
  dist_opt : ∀ p ∈ st.dist, ∀ l, is_path_between g s p.1 l → p.2 ≤ path_weight_sum g l
  order_le : ∀ p ∈ st.dist, ∀ e ∈ st.fringe, p.2 ≤ e.1
  dist_keys : (st.dist.map Prod.fst).Nodup
  start_inv : (alook st.dist s).isSome = true ∨ ((0 : ℤ), 0, s) ∈ st.fringe
  seen_link : ∀ q ∈ st.seen, (alook st.dist q.1).isSome = true ∨
    ∃ e ∈ st.fringe, e.2.2 = q.1 ∧ e.1 = q.2
  frontier : ∀ p ∈ st.dist, ∀ u ∈ g.neighbors p.1, FrontierAt g st p.1 p.2 u

/-- Following a walk from a settled node to an unsettled one meets the
frontier: some heap entry is at most the settled label plus the walk
weight. -/
theorem dijk_frontier_path {g : WGraph} {s : Node} {st : DijkState}
    (inv : DijkInv g s st) (hnn : ∀ e ∈ g.edges, 0 ≤ e.2.2) :
    ∀ (q : List Node) (x0 : Node) (dx0 : ℤ), (x0, dx0) ∈ st.dist →
      List.Chain (fun a b => g.has_edge a b = true) x0 q →
      ∀ x, (x0 :: q).getLast? = some x → alook st.dist x = none →
      ∃ e ∈ st.fringe, e.1 ≤ dx0 + path_weight_sum g (x0 :: q) := by
  intro q
  induction q with
  | nil =>
    intro x0 dx0 hmem _ x hlast hx
    have hxx : x0 = x := by simpa using hlast
    subst hxx
    have := alook_isSome_of_mem hmem
    rw [hx] at this
    simp at this
  | cons y q2 ih =>
    intro x0 dx0 hmem hch x hlast hx
    rw [List.chain_cons] at hch
    have hlast2 : (y :: q2).getLast? = some x := by
      rw [← hlast]
      exact List.getLast?_cons_cons.symm
    have hwsplit := path_weight_sum_cons g x0 y q2
    cases hy : alook st.dist y with
    | some dy =>
      have hymem := mem_of_alook_eq_some hy
      obtain ⟨e, he, hle⟩ := ih y dy hymem hch.2 x hlast2 hx
      obtain ⟨l0, hl0, hw0⟩ := inv.dist_sound (x0, dx0) hmem
      have hl0a : is_path_between g s x0 l0 := hl0
      have hw0a : path_weight_sum g l0 = dx0 := hw0
      obtain ⟨hext, hwext⟩ := walk_extend hl0a hch.1
      have hopt : dy ≤ path_weight_sum g (l0 ++ [y]) :=
        inv.dist_opt (y, dy) hymem (l0 ++ [y]) hext
      rw [hwext, hw0a] at hopt
      refine ⟨e, he, ?_⟩
      rw [hwsplit]
      omega
    | none =>
      have hynb : y ∈ g.neighbors x0 := mem_neighbors_of_has_edge hch.1
      have hfr := inv.frontier (x0, dx0) hmem y (by simpa using hynb)
      unfold FrontierAt at hfr
      rcases hfr with hleft | ⟨sv, hsv, hsvle⟩
      · rw [hy] at hleft
        simp at hleft
      · have hsmem := mem_of_alook_eq_some hsv
        rcases inv.seen_link (y, sv) hsmem with hleft | ⟨e, he, hey, hev⟩
        · simp only at hleft
          rw [hy] at hleft
          simp at hleft
        · refine ⟨e, he, ?_⟩
          have hrest := chain_weight_nonneg hnn q2 y
          have hsvle2 : sv ≤ dx0 + (g.edge_weight x0 y).getD 1 := hsvle
          have hev2 : e.1 = sv := hev
          rw [hwsplit]
          omega

/-- Any walk to an unsettled node is covered by some heap entry of at most
its weight. -/
theorem dijk_cover {g : WGraph} {s : Node} {st : DijkState}
    (inv : DijkInv g s st) (hnn : ∀ e ∈ g.edges, 0 ≤ e.2.2) :
    ∀ x l, is_path_between g s x l → alook st.dist x = none →
      ∃ e ∈ st.fringe, e.1 ≤ path_weight_sum g l := by
  intro x l hl hx
  obtain ⟨q, rfl, hch, hlast⟩ := hl
  cases hs : alook st.dist s with
  | none =>
    rcases inv.start_inv with h1 | h2
    · rw [hs] at h1
      simp at h1
    · exact ⟨(0, 0, s), h2, chain_weight_nonneg hnn q s⟩
  | some ds =>
    have hmem := mem_of_alook_eq_some hs
    have hds0 : ds ≤ 0 := by
      have := inv.dist_opt (s, ds) hmem [s] (is_path_between_singleton g s)
      simpa [path_weight_sum] using this
    obtain ⟨e, he, hle⟩ := dijk_frontier_path inv hnn q s ds hmem hch x hlast hx
    exact ⟨e, he, by omega⟩

/-! Relaxation invariant and step lemmas of the Dijkstra loop. -/

theorem alook_append_left {β : Type} {l : AList β} {k : Node} {b : β}
    (h : alook l k = some b) (l2 : AList β) : alook (l ++ l2) k = some b := by
  unfold alook at h ⊢
  rw [List.find?_append]
  obtain ⟨p, hf, hpb⟩ := Option.map_eq_some'.mp h
  rw [hf]
  simp [hpb]

theorem alook_append_left_isSome {β : Type} {l : AList β} {k : Node} (l2 : AList β)
    (h : (alook l k).isSome = true) : (alook (l ++ l2) k).isSome = true := by
  obtain ⟨b, hb⟩ := Option.isSome_iff_exists.mp h
  rw [alook_append_left hb l2]
  rfl

/-- `FrontierAt` is monotone under settling more nodes and decreasing
`seen` values. -/
theorem frontier_at_mono {g : WGraph} {st st2 : DijkState} {x : Node} {dx : ℤ} {u : Node}
    (hdist : ∀ k, (alook st.dist k).isSome = true → (alook st2.dist k).isSome = true)
    (hseen : ∀ k sv, alook st.seen k = some sv →
      ∃ sv2, alook st2.seen k = some sv2 ∧ sv2 ≤ sv)
    (h : FrontierAt g st x dx u) : FrontierAt g st2 x dx u := by
  rcases h with h1 | ⟨sv, hsv, hle⟩
  · exact Or.inl (hdist u h1)
  · obtain ⟨sv2, hsv2, hle2⟩ := hseen u sv hsv
    exact Or.inr ⟨sv2, hsv2, by omega⟩

theorem neighbors_length_le (g : WGraph) (u : Node) :
    (g.neighbors u).length ≤ g.edges.length :=
  List.length_filterMap_le _ _

/-- The invariant of the inner relaxation loop: the full `DijkInv` except
that the frontier condition at the freshly finalized node `v` (settled at
`d`) may still be outstanding, exactly on the unprocessed tail `us` of its
adjacency. -/
structure RelaxInv (g : WGraph) (s v : Node) (d : ℤ) (us : List Node) (st : DijkState) : Prop where
  fringe_nodes : ∀ e ∈ st.fringe, e.2.2 ∈ g.nodes
  fringe_sound : ∀ e ∈ st.fringe,
    ∃ l, is_path_between g s e.2.2 l ∧ path_weight_sum g l = e.1
  dist_sound : ∀ p ∈ st.dist,
    ∃ l, is_path_between g s p.1 l ∧ path_weight_sum g l = p.2
  dist_opt : ∀ p ∈ st.dist, ∀ l, is_path_between g s p.1 l → p.2 ≤ path_weight_sum g l
  order_le : ∀ p ∈ st.dist, ∀ e ∈ st.fringe, p.2 ≤ e.1
  dist_keys : (st.dist.map Prod.fst).Nodup
  start_inv : (alook st.dist s).isSome = true ∨ ((0 : ℤ), 0, s) ∈ st.fringe
  seen_link : ∀ q ∈ st.seen, (alook st.dist q.1).isSome = true ∨
    ∃ e ∈ st.fringe, e.2.2 = q.1 ∧ e.1 = q.2
  vlook : alook st.dist v = some d
  dmax : ∀ p ∈ st.dist, p.2 ≤ d
  frontier_part : ∀ p ∈ st.dist, ∀ u ∈ g.neighbors p.1,
    FrontierAt g st p.1 p.2 u ∨ (p.1 = v ∧ p.2 = d ∧ u ∈ us)

/-- A fully processed relaxation restores the loop invariant. -/
theorem relaxinv_of_nil {g : WGraph} {s v : Node} {d : ℤ} {st : DijkState}
    (h : RelaxInv g s v d [] st) : DijkInv g s st := by
  refine ⟨h.fringe_nodes, h.fringe_sound, h.dist_sound, h.dist_opt, h.order_le,
    h.dist_keys, h.start_inv, h.seen_link, ?_⟩
  intro p hp u hu
  rcases h.frontier_part p hp u hu with h1 | ⟨_, _, h3⟩
  · exact h1
  · exact absurd h3 (List.not_mem_nil u)

/-- Popping an already settled entry preserves the loop invariant. -/
theorem dijk_skip_inv {g : WGraph} {s : Node} {st : DijkState} {d : ℤ} {c : ℕ}
    {v : Node} {rest : List HEntry} (inv : DijkInv g s st)
    (hpop : pop_min st.fringe = some ((d, c, v), rest))
    (hsettled : (alook st.dist v).isSome = true) :
    DijkInv g s { st with fringe := rest } := by
  obtain ⟨hperm, _⟩ := pop_min_spec st.fringe ((d, c, v)) rest hpop
  have hsub : ∀ e ∈ rest, e ∈ st.fringe := fun e he =>
    hperm.mem_iff.mpr (List.mem_cons_of_mem _ he)
  refine ⟨?_, ?_, inv.dist_sound, inv.dist_opt, ?_, inv.dist_keys, ?_, ?_, inv.frontier⟩
  · intro e he
    exact inv.fringe_nodes e (hsub e he)
  · intro e he
    exact inv.fringe_sound e (hsub e he)
  · intro p hp e he
    exact inv.order_le p hp e (hsub e he)
  · rcases inv.start_inv with h | h
    · exact Or.inl h
    · rcases List.mem_cons.mp (hperm.mem_iff.mp h) with heq | hr
      · have hv : s = v := congrArg (fun e => e.2.2) heq
        refine Or.inl ?_
        show (alook st.dist s).isSome = true
        rw [hv]
        exact hsettled
      · exact Or.inr hr
  · intro q hq
    rcases inv.seen_link q hq with h | ⟨e, he, h1, h2⟩
    · exact Or.inl h
    · rcases List.mem_cons.mp (hperm.mem_iff.mp he) with heq | hr
      · have hq1 : q.1 = v := by
          rw [heq] at h1
          exact h1.symm
        refine Or.inl ?_
        show (alook st.dist q.1).isSome = true
        rw [hq1]
        exact hsettled
      · exact Or.inr ⟨e, hr, h1, h2⟩

/-- Finalizing the popped minimum establishes the relaxation invariant,
with the whole adjacency of the finalized node outstanding. -/
theorem dijk_finalize_inv {g : WGraph} {s : Node} {st : DijkState}
    (inv : DijkInv g s st) (hnn : ∀ e ∈ g.edges, 0 ≤ e.2.2)
    {d : ℤ} {c : ℕ} {v : Node} {rest : List HEntry}
    (hpop : pop_min st.fringe = some ((d, c, v), rest))
    (hnone : alook st.dist v = none) :
    RelaxInv g s v d (g.neighbors v)
      { st with fringe := rest, dist := aset st.dist v d } := by
  obtain ⟨hperm, hmin⟩ := pop_min_spec st.fringe ((d, c, v)) rest hpop
  have hsub : ∀ e ∈ rest, e ∈ st.fringe := fun e he =>
    hperm.mem_iff.mpr (List.mem_cons_of_mem _ he)
  have hm : ((d, c, v) : HEntry) ∈ st.fringe :=
    hperm.mem_iff.mpr (List.mem_cons_self _ _)
  have hda : aset st.dist v d = st.dist ++ [(v, d)] := aset_of_alook_none d hnone
  have hnokey : ∀ p ∈ st.dist, p.1 ≠ v := alook_eq_none_iff.mp hnone
  have hdle : ∀ e ∈ rest, d ≤ e.1 := fun e he => entry_lt_false_le (hmin e he)
  have hvd_sound : ∃ l, is_path_between g s v l ∧ path_weight_sum g l = d := by
    obtain ⟨l, hl, hw⟩ := inv.fringe_sound ((d, c, v)) hm
    exact ⟨l, hl, hw⟩
  have hvd_opt : ∀ l, is_path_between g s v l → d ≤ path_weight_sum g l := by
    intro l hl
    obtain ⟨e, he, hle⟩ := dijk_cover inv hnn v l hl hnone
    rcases List.mem_cons.mp (hperm.mem_iff.mp he) with heq | hr
    · rw [heq] at hle
      exact hle
    · have := hdle e hr
      omega
  have hmemext : ∀ (p : Node × ℤ), p ∈ st.dist ++ [(v, d)] → p ∈ st.dist ∨ p = (v, d) := by
    intro p hp
    rcases List.mem_append.mp hp with h | h
    · exact Or.inl h
    · exact Or.inr (by simpa using h)
  have hlookext : ∀ k, (alook st.dist k).isSome = true →
      (alook (aset st.dist v d) k).isSome = true := by
    intro k hk
    rw [hda]
    exact alook_append_left_isSome [(v, d)] hk
  have hvlook : alook (aset st.dist v d) v = some d := by
    rw [hda]
    exact alook_append_single_self st.dist v d hnone
  refine ⟨?_, ?_, ?_, ?_, ?_, ?_, ?_, ?_, hvlook, ?_, ?_⟩
  · intro e he
    exact inv.fringe_nodes e (hsub e he)
  · intro e he
    exact inv.fringe_sound e (hsub e he)
  · intro p hp
    rcases hmemext p (by rw [← hda]; exact hp) with h | heq
    · exact inv.dist_sound p h
    · subst heq
      exact hvd_sound
  · intro p hp
    rcases hmemext p (by rw [← hda]; exact hp) with h | heq
    · exact inv.dist_opt p h
    · subst heq
      exact hvd_opt
  · intro p hp e he
    rcases hmemext p (by rw [← hda]; exact hp) with h | heq
    · exact inv.order_le p h e (hsub e he)
    · subst heq
      exact hdle e he
  · show ((aset st.dist v d).map Prod.fst).Nodup
    rw [hda, List.map_append]
    refine List.Nodup.append inv.dist_keys (List.nodup_singleton v) ?_
    intro a ha hb
    have hav : a = v := by simpa using hb
    obtain ⟨p, hp, hpa⟩ := List.mem_map.mp ha
    exact hnokey p hp (by rw [hpa, hav])
  · rcases inv.start_inv with h | h
    · exact Or.inl (hlookext s h)
    · rcases List.mem_cons.mp (hperm.mem_iff.mp h) with heq | hr
      · have hv : s = v := congrArg (fun e => e.2.2) heq
        refine Or.inl ?_
        show (alook (aset st.dist v d) s).isSome = true
        rw [hv, hvlook]
        rfl
      · exact Or.inr hr
  · intro q hq
    rcases inv.seen_link q hq with h | ⟨e, he, h1, h2⟩
    · exact Or.inl (hlookext q.1 h)
    · rcases List.mem_cons.mp (hperm.mem_iff.mp he) with heq | hr
      · have hq1 : q.1 = v := by
          rw [heq] at h1
          exact h1.symm
        refine Or.inl ?_
        show (alook (aset st.dist v d) q.1).isSome = true
        rw [hq1, hvlook]
        rfl
      · exact Or.inr ⟨e, hr, h1, h2⟩
  · intro p hp
    rcases hmemext p (by rw [← hda]; exact hp) with h | heq
    · exact inv.order_le p h ((d, c, v)) hm
    · subst heq
      exact le_refl d
  · intro p hp u hu
    rcases hmemext p (by rw [← hda]; exact hp) with h | heq
    · refine Or.inl ?_
      refine frontier_at_mono ?_ ?_ (inv.frontier p h u hu)
      · intro k hk
        exact hlookext k hk
      · intro k sv hsv
        exact ⟨sv, hsv, le_refl sv⟩
    · subst heq
      exact Or.inr ⟨rfl, rfl, hu⟩

/-- Pushing an improved tentative label during relaxation preserves the
relaxation invariant (shrinking the outstanding adjacency). -/
theorem dijk_relax_push_inv {g : WGraph} {s v : Node} {d : ℤ} {u : Node} {us : List Node}
    {st : DijkState} (hwf : g.Wf) (hnn : ∀ e ∈ g.edges, 0 ≤ e.2.2)
    (inv : RelaxInv g s v d (u :: us) st)
    (hu : u ∈ g.neighbors v)
    (hdu : alook st.dist u = none)
    (himp : ∀ sv, alook st.seen u = some sv → d + (g.edge_weight v u).getD 1 < sv) :
    RelaxInv g s v d us
      { st with seen := aset st.seen u (d + (g.edge_weight v u).getD 1),
                fringe := st.fringe ++ [(d + (g.edge_weight v u).getD 1, st.cnt, u)],
                paths := aset st.paths u ((alook st.paths v).getD [] ++ [u]),
                cnt := st.cnt + 1 } := by
  have hw : 0 ≤ (g.edge_weight v u).getD 1 := edge_weight_getD_nonneg hnn v u
  have hvmem : ((v, d) : Node × ℤ) ∈ st.dist := mem_of_alook_eq_some inv.vlook
  obtain ⟨l, hl, hwt⟩ := inv.dist_sound ((v, d)) hvmem
  have hl2 : is_path_between g s v l := hl
  have hwt2 : path_weight_sum g l = d := hwt
  obtain ⟨hext, hwext⟩ := walk_extend hl2 (has_edge_of_mem_neighbors hu)
  refine ⟨?_, ?_, inv.dist_sound, inv.dist_opt, ?_, inv.dist_keys, ?_, ?_,
    inv.vlook, inv.dmax, ?_⟩
  · intro e he
    rcases List.mem_append.mp he with h | h
    · exact inv.fringe_nodes e h
    · have heq : e = (d + (g.edge_weight v u).getD 1, st.cnt, u) := by simpa using h
      subst heq
      exact neighbors_subset_nodes hwf hu
  · intro e he
    rcases List.mem_append.mp he with h | h
    · exact inv.fringe_sound e h
    · have heq : e = (d + (g.edge_weight v u).getD 1, st.cnt, u) := by simpa using h
      subst heq
      refine ⟨l ++ [u], hext, ?_⟩
      rw [hwext, hwt2]
  · intro p hp e he
    rcases List.mem_append.mp he with h | h
    · exact inv.order_le p hp e h
    · have heq : e = (d + (g.edge_weight v u).getD 1, st.cnt, u) := by simpa using h
      have he1 : e.1 = d + (g.edge_weight v u).getD 1 := by rw [heq]
      have hpd : p.2 ≤ d := inv.dmax p hp
      omega
  · rcases inv.start_inv with h | h
    · exact Or.inl h
    · exact Or.inr (List.mem_append_left _ h)
  · intro q hq
    have hq2 : q ∈ aset st.seen u (d + (g.edge_weight v u).getD 1) := hq
    rcases mem_aset hq2 with heq | ⟨hmem, _⟩
    · subst heq
      refine Or.inr ⟨(d + (g.edge_weight v u).getD 1, st.cnt, u),
        List.mem_append_right _ (List.mem_singleton.mpr rfl), rfl, rfl⟩
    · rcases inv.seen_link q hmem with h | ⟨e, he, h1, h2⟩
      · exact Or.inl h
      · exact Or.inr ⟨e, List.mem_append_left _ he, h1, h2⟩
  · intro p hp u2 hu2
    rcases inv.frontier_part p hp u2 hu2 with hF | ⟨hp1, hp2, hmem⟩
    · refine Or.inl (frontier_at_mono ?_ ?_ hF)
      · intro k hk
        exact hk
      · intro k sv hsv
        by_cases hk : k = u
        · subst hk
          have hlt := himp sv hsv
          refine ⟨d + (g.edge_weight v k).getD 1, ?_, le_of_lt hlt⟩
          show alook (aset st.seen k (d + (g.edge_weight v k).getD 1)) k = _
          exact alook_aset_self st.seen k (d + (g.edge_weight v k).getD 1)
        · refine ⟨sv, ?_, le_refl sv⟩
          show alook (aset st.seen u (d + (g.edge_weight v u).getD 1)) k = some sv
          rw [alook_aset_ne st.seen u k _ hk]
          exact hsv
    · rcases List.mem_cons.mp hmem with heq | hmem2
      · subst heq
        refine Or.inl (Or.inr ⟨d + (g.edge_weight v u2).getD 1, ?_, ?_⟩)
        · exact alook_aset_self st.seen u2 (d + (g.edge_weight v u2).getD 1)
        · rw [hp1, hp2]
      · exact Or.inr ⟨hp1, hp2, hmem2⟩

/-- The relaxation loop never raises on nonnegative weights, preserves the
`dist` dict, pushes at most one heap entry per neighbor, and discharges the
outstanding adjacency. -/
theorem dijk_relax_ok {g : WGraph} {s v : Node} {d : ℤ} (hwf : g.Wf)
    (hnn : ∀ e ∈ g.edges, 0 ≤ e.2.2) :
    ∀ (us : List Node) (st : DijkState), (∀ x ∈ us, x ∈ g.neighbors v) →
      RelaxInv g s v d us st →
      ∃ st2, dijk_relax g v d us st = .ok st2 ∧ RelaxInv g s v d [] st2 ∧
        st2.dist = st.dist ∧ st2.fringe.length ≤ st.fringe.length + us.length := by
  intro us
  induction us with
  | nil =>
    intro st _ inv
    exact ⟨st, rfl, inv, rfl, by simp⟩
  | cons u us ih =>
    intro st hsub inv
    have hu : u ∈ g.neighbors v := hsub u (List.mem_cons_self _ _)
    have hw : 0 ≤ (g.edge_weight v u).getD 1 := edge_weight_getD_nonneg hnn v u
    have hsub2 : ∀ x ∈ us, x ∈ g.neighbors v := fun x hx => hsub x (List.mem_cons_of_mem _ hx)
    cases hdu : alook st.dist u with
    | some du =>
      have hdumem : ((u, du) : Node × ℤ) ∈ st.dist := mem_of_alook_eq_some hdu
      have hdud : du ≤ d := inv.dmax ((u, du)) hdumem
      have hcond : ¬ (d + (g.edge_weight v u).getD 1 < du) := by omega
      have inv2 : RelaxInv g s v d us st := by
        refine ⟨inv.fringe_nodes, inv.fringe_sound, inv.dist_sound, inv.dist_opt,
          inv.order_le, inv.dist_keys, inv.start_inv, inv.seen_link, inv.vlook,
          inv.dmax, ?_⟩
        intro p hp u2 hu2
        rcases inv.frontier_part p hp u2 hu2 with hF | ⟨h1, h2, h3⟩
        · exact Or.inl hF
        · rcases List.mem_cons.mp h3 with heq | hmem
          · subst heq
            refine Or.inl (Or.inl ?_)
            rw [hdu]
            rfl
          · exact Or.inr ⟨h1, h2, hmem⟩
      obtain ⟨st2, hrun, hinv2, hdist, hlen⟩ := ih st hsub2 inv2
      refine ⟨st2, ?_, hinv2, hdist, by simp; omega⟩
      show dijk_relax g v d (u :: us) st = Except.ok st2
      simp only [dijk_relax]
      rw [hdu]
      simp only [if_neg hcond]
      exact hrun
    | none =>
      cases hsu : alook st.seen u with
      | some su =>
        by_cases himp : d + (g.edge_weight v u).getD 1 < su
        · have inv2 := dijk_relax_push_inv hwf hnn inv hu hdu
            (fun sv hsv => by
              rw [hsu] at hsv
              have hsveq : su = sv := Option.some.inj hsv
              omega)
          obtain ⟨st2, hrun, hinv2, hdist, hlen⟩ := ih _ hsub2 inv2
          refine ⟨st2, ?_, hinv2, hdist, ?_⟩
          · show dijk_relax g v d (u :: us) st = Except.ok st2
            simp only [dijk_relax]
            rw [hdu, hsu]
            simp only [if_pos himp]
            exact hrun
          · simp only [List.length_append, List.length_singleton] at hlen
            simp only [List.length_cons]
            omega
        · have inv2 : RelaxInv g s v d us st := by
            refine ⟨inv.fringe_nodes, inv.fringe_sound, inv.dist_sound, inv.dist_opt,
              inv.order_le, inv.dist_keys, inv.start_inv, inv.seen_link, inv.vlook,
              inv.dmax, ?_⟩
            intro p hp u2 hu2
            rcases inv.frontier_part p hp u2 hu2 with hF | ⟨h1, h2, h3⟩
            · exact Or.inl hF
            · rcases List.mem_cons.mp h3 with heq | hmem
              · subst heq
                refine Or.inl (Or.inr ⟨su, hsu, ?_⟩)
                rw [h1, h2]
                omega
              · exact Or.inr ⟨h1, h2, hmem⟩
          obtain ⟨st2, hrun, hinv2, hdist, hlen⟩ := ih st hsub2 inv2
          refine ⟨st2, ?_, hinv2, hdist, by simp; omega⟩
          show dijk_relax g v d (u :: us) st = Except.ok st2
          simp only [dijk_relax]
          rw [hdu, hsu]
          simp only [if_neg himp]
          exact hrun
      | none =>
        have inv2 := dijk_relax_push_inv hwf hnn inv hu hdu
          (fun sv hsv => by rw [hsu] at hsv; exact absurd hsv (by simp))
        obtain ⟨st2, hrun, hinv2, hdist, hlen⟩ := ih _ hsub2 inv2
        refine ⟨st2, ?_, hinv2, hdist, ?_⟩
        · show dijk_relax g v d (u :: us) st = Except.ok st2
          simp only [dijk_relax]
          rw [hdu, hsu]
          exact hrun
        · simp only [List.length_append, List.length_singleton] at hlen
          simp only [List.length_cons]
          omega

/-- Decreasing measure of the Dijkstra loop: heap size plus, for every
unsettled node, one plus its degree. -/
def dijk_measure (g : WGraph) (st : DijkState) : ℕ :=
  st.fringe.length +
    ((g.nodes.filter (fun u => (alook st.dist u).isNone)).map
      (fun u => 1 + (g.neighbors u).length)).sum

/-- Splitting one kept element out of a filtered sum (over a duplicate-free
list). -/
theorem sum_map_filter_and_ne (f : Node → ℕ) (v : Node) :
    ∀ (l : List Node) (p : Node → Bool), l.Nodup → v ∈ l → p v = true →
      ((l.filter p).map f).sum =
        ((l.filter (fun u => p u && (u != v))).map f).sum + f v := by
  intro l
  induction l with
  | nil =>
    intro p _ hv _
    exact absurd hv (List.not_mem_nil v)
  | cons a l ih =>
    intro p hnd hv hpv
    have hnd2 := List.nodup_cons.mp hnd
    by_cases hav : a = v
    · subst hav
      rw [List.filter_cons_of_pos hpv]
      have hq : (fun u => p u && (u != a)) a = false := by simp
      rw [List.filter_cons_of_neg (by simp [hq])]
      have hcong : l.filter (fun u => p u && (u != a)) = l.filter p := by
        apply List.filter_congr
        intro x hx
        have hxa : x ≠ a := fun hc => hnd2.1 (hc ▸ hx)
        simp [hxa]
      rw [hcong]
      simp only [List.map_cons, List.sum_cons]
      omega
    · have hv2 : v ∈ l := by
        rcases List.mem_cons.mp hv with h | h
        · exact absurd h.symm hav
        · exact h
      have hih := ih p hnd2.2 hv2 hpv
      by_cases hpa : p a = true
      · rw [List.filter_cons_of_pos hpa,
          List.filter_cons_of_pos (by simp [hpa, hav])]
        simp only [List.map_cons, List.sum_cons]
        omega
      · rw [List.filter_cons_of_neg (by simp [hpa]),
          List.filter_cons_of_neg (by simp [hpa])]
        exact hih

/-! One-step equations of the Dijkstra loop. -/

theorem dijk_loop_succ_none (g : WGraph) (target : Option Node) (fuel : ℕ)
    (st : DijkState) (h : pop_min st.fringe = none) :
    dijk_loop g target (fuel + 1) st = .ok st := by
  simp only [dijk_loop]
  rw [h]

theorem dijk_loop_succ_skip (g : WGraph) (target : Option Node) (fuel : ℕ)
    (st : DijkState) (d : ℤ) (c : ℕ) (v : Node) (rest : List HEntry)
    (h : pop_min st.fringe = some ((d, c, v), rest))
    (hs : (alook st.dist v).isSome = true) :
    dijk_loop g target (fuel + 1) st =
      dijk_loop g target fuel { st with fringe := rest } := by
  simp only [dijk_loop]
  rw [h]
  simp only [hs, if_true]

theorem dijk_loop_succ_break (g : WGraph) (t : Node) (fuel : ℕ)
    (st : DijkState) (d : ℤ) (c : ℕ) (v : Node) (rest : List HEntry)
    (h : pop_min st.fringe = some ((d, c, v), rest))
    (hs : (alook st.dist v).isSome = false) (htv : t = v) :
    dijk_loop g (some t) (fuel + 1) st =
      .ok { st with fringe := rest, dist := aset st.dist v d } := by
  simp only [dijk_loop]
  rw [h]
  simp only [hs, Bool.false_eq_true, if_false]
  rw [if_pos (by rw [htv])]

theorem dijk_loop_succ_relax (g : WGraph) (t : Node) (fuel : ℕ)
    (st : DijkState) (d : ℤ) (c : ℕ) (v : Node) (rest : List HEntry)
    (h : pop_min st.fringe = some ((d, c, v), rest))
    (hs : (alook st.dist v).isSome = false) (htv : t ≠ v) :
    dijk_loop g (some t) (fuel + 1) st =
      match dijk_relax g v d (g.neighbors v)
          { st with fringe := rest, dist := aset st.dist v d } with
      | .error _ => .error .valueError
      | .ok st2 => dijk_loop g (some t) fuel st2 := by
  simp only [dijk_loop]
  rw [h]
  simp only [hs, Bool.false_eq_true, if_false]
  rw [if_neg (fun hc => htv (Option.some.inj hc))]

/-- What the final theorem reads off a finished Dijkstra state: settled
labels are sound and optimal, and an unsettled target is unreachable. -/
def dijk_dist_good (g : WGraph) (s t : Node) (st : DijkState) : Prop :=
  (∀ p ∈ st.dist, ∃ l, is_path_between g s p.1 l ∧ path_weight_sum g l = p.2) ∧
  (∀ p ∈ st.dist, ∀ l, is_path_between g s p.1 l → p.2 ≤ path_weight_sum g l) ∧
  ((alook st.dist t).isNone = true → ∀ l, ¬ is_path_between g s t l)

/-- The Dijkstra loop, given fuel exceeding the measure, finishes without
error in a state whose labels are sound and optimal and which settles every
reachable node (in particular the target, absent an early break at it). -/
theorem dijk_loop_ok {g : WGraph} {s t : Node} (hwf : g.Wf)
    (hnn : ∀ e ∈ g.edges, 0 ≤ e.2.2) :
    ∀ (fuel : ℕ) (st : DijkState), DijkInv g s st →
      dijk_measure g st + 1 ≤ fuel →
      ∃ st2, dijk_loop g (some t) fuel st = .ok st2 ∧ dijk_dist_good g s t st2 := by
  intro fuel
  induction fuel with
  | zero =>
    intro st _ hm
    omega
  | succ fuel ih =>
    intro st inv hm
    cases hpop : pop_min st.fringe with
    | none =>
      refine ⟨st, dijk_loop_succ_none g (some t) fuel st hpop,
        inv.dist_sound, inv.dist_opt, ?_⟩
      intro ht l hl
      have hfr : st.fringe = [] := (pop_min_eq_none_iff st.fringe).mp hpop
      obtain ⟨e, he, _⟩ :=
        dijk_cover inv hnn t l hl (Option.isNone_iff_eq_none.mp ht)
      rw [hfr] at he
      exact absurd he (List.not_mem_nil e)
    | some pr =>
      obtain ⟨⟨d, c, v⟩, rest⟩ := pr
      obtain ⟨hperm, _⟩ := pop_min_spec st.fringe ((d, c, v)) rest hpop
      have hflen : st.fringe.length = rest.length + 1 := by
        rw [hperm.length_eq]
        rfl
      cases hsettled : (alook st.dist v).isSome with
      | true =>
        have inv2 := dijk_skip_inv inv hpop hsettled
        have hm2 : dijk_measure g { st with fringe := rest } + 1 ≤ fuel := by
          unfold dijk_measure at hm ⊢
          simp only at hm ⊢
          omega
        obtain ⟨st2, hrun, hgood⟩ := ih _ inv2 hm2
        exact ⟨st2,
          by rw [dijk_loop_succ_skip g (some t) fuel st d c v rest hpop hsettled, hrun],
          hgood⟩
      | false =>
        have hnone : alook st.dist v = none := by
          cases h : alook st.dist v with
          | none => rfl
          | some x =>
            rw [h] at hsettled
            exact absurd hsettled (by simp)
        have rinv := dijk_finalize_inv inv hnn hpop hnone
        have hvmem : v ∈ g.nodes := inv.fringe_nodes ((d, c, v))
          (hperm.mem_iff.mpr (List.mem_cons_self _ _))
        by_cases htv : t = v
        · refine ⟨{ st with fringe := rest, dist := aset st.dist v d },
            dijk_loop_succ_break g t fuel st d c v rest hpop hsettled htv,
            rinv.dist_sound, rinv.dist_opt, ?_⟩
          intro ht
          exfalso
          rw [htv] at ht
          have h2 : (alook (aset st.dist v d) v).isNone = true := ht
          have hvl : alook (aset st.dist v d) v = some d := rinv.vlook
          rw [hvl] at h2
          exact absurd h2 (by simp)
        · obtain ⟨st2, hrun, hinv2, hdist2, hlen2⟩ :=
            dijk_relax_ok hwf hnn (g.neighbors v)
              { st with fringe := rest, dist := aset st.dist v d }
              (fun x hx => hx) rinv
          have inv3 := relaxinv_of_nil hinv2
          have hm3 : dijk_measure g st2 + 1 ≤ fuel := by
            have hpt : ∀ u, (alook (aset st.dist v d) u).isNone =
                ((alook st.dist u).isNone && (u != v)) := by
              intro u
              by_cases huv : u = v
              · subst huv
                rw [aset_of_alook_none d hnone,
                  alook_append_single_self st.dist u d hnone, hnone]
                simp
              · rw [aset_of_alook_none d hnone,
                  alook_append_single_ne st.dist v u d huv]
                simp [huv]
            have hfc : g.nodes.filter (fun u => (alook st2.dist u).isNone) =
                g.nodes.filter (fun u =>
                  (alook st.dist u).isNone && (u != v)) := by
              apply List.filter_congr
              intro x _
              rw [hdist2]
              exact hpt x
            have hsplit := sum_map_filter_and_ne
              (fun u => 1 + (g.neighbors u).length) v g.nodes
              (fun u => (alook st.dist u).isNone) hwf.1 hvmem
              (by show (alook st.dist v).isNone = true; rw [hnone]; rfl)
            unfold dijk_measure at hm ⊢
            simp only at hm hsplit ⊢
            rw [hfc]
            have hlen3 : st2.fringe.length ≤ rest.length + (g.neighbors v).length := by
              simpa using hlen2
            omega
          obtain ⟨st4, hrun4, hgood4⟩ := ih st2 inv3 hm3
          refine ⟨st4, ?_, hgood4⟩
          rw [dijk_loop_succ_relax g t fuel st d c v rest hpop hsettled htv, hrun]
          exact hrun4

/-- The loop invariant holds at the initial `_dijkstra` state. -/
theorem dijk_init_inv {g : WGraph} {s : Node} (hs : s ∈ g.nodes) :
    DijkInv g s (dijk_init s) := by
  refine ⟨?_, ?_, ?_, ?_, ?_, ?_, ?_, ?_, ?_⟩
  · intro e he
    have heq : e = ((0 : ℤ), 0, s) := by simpa [dijk_init] using he
    subst heq
    exact hs
  · intro e he
    have heq : e = ((0 : ℤ), 0, s) := by simpa [dijk_init] using he
    subst heq
    exact ⟨[s], is_path_between_singleton g s, rfl⟩
  · intro p hp
    exact absurd hp (List.not_mem_nil p)
  · intro p hp
    exact absurd hp (List.not_mem_nil p)
  · intro p hp
    exact absurd hp (List.not_mem_nil p)
  · simp [dijk_init]
  · exact Or.inr (by simp [dijk_init])
  · intro q hq
    have heq : q = (s, (0 : ℤ)) := by simpa [dijk_init] using hq
    subst heq
    exact Or.inr ⟨((0 : ℤ), 0, s), by simp [dijk_init], rfl, rfl⟩
  · intro p hp
    exact absurd hp (List.not_mem_nil p)

/-- `dijkstra_fuel` strictly exceeds the initial loop measure. -/
theorem dijk_init_measure (g : WGraph) (s : Node) :
    dijk_measure g (dijk_init s) + 1 ≤ dijkstra_fuel g := by
  unfold dijk_measure dijkstra_fuel dijk_init
  simp only
  have hfe : g.nodes.filter (fun u => (alook ([] : AList ℤ) u).isNone) = g.nodes := by
    apply List.filter_eq_self.mpr
    intro a _
    rfl
  rw [hfe]
  have hbound : (g.nodes.map (fun u => 1 + (g.neighbors u).length)).sum ≤
      g.nodes.length * (1 + g.edges.length) := by
    have h1 := List.sum_le_card_nsmul (g.nodes.map (fun u => 1 + (g.neighbors u).length))
      (1 + g.edges.length) ?_
    · simpa [smul_eq_mul] using h1
    · intro x hx
      obtain ⟨u, _, rfl⟩ := List.mem_map.mp hx
      have := neighbors_length_le g u
      omega
  simp only [List.length_singleton]
  omega

/-- A full `_dijkstra` run from a node of the graph, under nonnegative
weights, succeeds with sound and optimal settled labels, settling the
target whenever it is reachable. -/
theorem run_dijkstra_ok {g : WGraph} {s t : Node} (hwf : g.Wf)
    (hnn : ∀ e ∈ g.edges, 0 ≤ e.2.2) (hs : s ∈ g.nodes) :
    ∃ st2, run_dijkstra g s (some t) = .ok st2 ∧ dijk_dist_good g s t st2 := by
  unfold run_dijkstra
  exact dijk_loop_ok hwf hnn (dijkstra_fuel g) (dijk_init s) (dijk_init_inv hs)
    (dijk_init_measure g s)

/-- C9 counterexample: `get_shortest_distance` does NOT swallow every
failure into the sentinel `-1` — an unknown START room makes the underlying
`nx.shortest_path_length` (= `dijkstra_path_length`, which validates only
its source) raise `NodeNotFound`, which the `except NetworkXNoPath` clause
does not catch, so the call raises instead of returning `-1`. -/
theorem get_shortest_distance_unknown_start_raises :
    get_shortest_distance (WGraph.mk ["A"] [] []) "X" "A" =
      .error .nodeNotFound := by decide

/-- C9 (amended). On a well-formed graph with nonnegative edge weights,
`get_shortest_distance(start, end)` behaves as follows: if `start` is not a
node of the graph it raises `NodeNotFound` (a typed error, contradicting
the claim that all failures are swallowed); otherwise it returns `0` when
`start = end`, the sentinel `-1` when no walk joins `start` to `end`
(including an unknown `end`), and otherwise the weight of an actual walk
from `start` to `end` that is minimal among all such walks. -/
theorem get_shortest_distance_spec (g : WGraph) (s t : Node)
    (hwf : g.Wf) (hnn : ∀ e ∈ g.edges, 0 ≤ e.2.2) :
    (g.has_node s = false → get_shortest_distance g s t = .error .nodeNotFound) ∧
    (g.has_node s = true → s = t → get_shortest_distance g s t = .ok 0) ∧
    (g.has_node s = true → s ≠ t → (∀ l, ¬ is_path_between g s t l) →
      get_shortest_distance g s t = .ok (-1)) ∧
    (g.has_node s = true → s ≠ t → ∀ l0, is_path_between g s t l0 →
      ∃ d, get_shortest_distance g s t = .ok d ∧
        (∃ l, is_path_between g s t l ∧ path_weight_sum g l = d) ∧
        ∀ l, is_path_between g s t l → d ≤ path_weight_sum g l) := by
  refine ⟨?_, ?_, ?_, ?_⟩
  · intro hsf
    unfold get_shortest_distance shortest_path_length_w
    rw [if_pos (by simp [hsf])]
  · intro hst heq
    subst heq
    unfold get_shortest_distance shortest_path_length_w
    rw [if_neg (by simp [hst])]
    rw [if_pos rfl]
  · intro hst hne hnp
    have hsm : s ∈ g.nodes := by simpa [WGraph.has_node] using hst
    obtain ⟨st2, hrun, hsound, hopt, hcomp⟩ := run_dijkstra_ok hwf hnn hsm
    have hspl : shortest_path_length_w g s t =
        (match alook st2.dist t with
         | some dv => Except.ok dv
         | none => Except.error DErr.noPath) := by
      unfold shortest_path_length_w
      rw [if_neg (by simp [hst]), if_neg hne, hrun]
    cases hlt : alook st2.dist t with
    | some dv =>
      exfalso
      have hmem := mem_of_alook_eq_some hlt
      obtain ⟨l, hl, _⟩ := hsound ((t, dv)) hmem
      have hl2 : is_path_between g s t l := hl
      exact hnp l hl2
    | none =>
      rw [hlt] at hspl
      simp only at hspl
      unfold get_shortest_distance
      rw [hspl]
  · intro hst hne l0 hl0
    have hsm : s ∈ g.nodes := by simpa [WGraph.has_node] using hst
    obtain ⟨st2, hrun, hsound, hopt, hcomp⟩ := run_dijkstra_ok hwf hnn hsm
    have hspl : shortest_path_length_w g s t =
        (match alook st2.dist t with
         | some dv => Except.ok dv
         | none => Except.error DErr.noPath) := by
      unfold shortest_path_length_w
      rw [if_neg (by simp [hst]), if_neg hne, hrun]
    cases hlt : alook st2.dist t with
    | none =>
      exfalso
      exact hcomp (by rw [hlt]; rfl) l0 hl0
    | some dv =>
      rw [hlt] at hspl
      simp only at hspl
      refine ⟨dv, ?_, ?_, ?_⟩
      · unfold get_shortest_distance
        rw [hspl]
      · have hmem := mem_of_alook_eq_some hlt
        obtain ⟨l, hl, hw⟩ := hsound ((t, dv)) hmem
        exact ⟨l, hl, hw⟩
      · intro l hl
        exact hopt ((t, dv)) (mem_of_alook_eq_some hlt) l hl

/-- Closed instance of the C9 theorem on the tie graph: `A` is a node, the
walk `[A, D]` joins `A` to `D`, and the call returns a minimal walk
weight. -/
theorem get_shortest_distance_spec_witness :
    (G4.has_node "A" = false →
      get_shortest_distance G4 "A" "D" = .error .nodeNotFound) ∧
    (G4.has_node "A" = true → "A" = "D" →
      get_shortest_distance G4 "A" "D" = .ok 0) ∧
    (G4.has_node "A" = true → "A" ≠ "D" →
      (∀ l, ¬ is_path_between G4 "A" "D" l) →
      get_shortest_distance G4 "A" "D" = .ok (-1)) ∧
    (G4.has_node "A" = true → "A" ≠ "D" →
      ∀ l0, is_path_between G4 "A" "D" l0 →
      ∃ d, get_shortest_distance G4 "A" "D" = .ok d ∧
        (∃ l, is_path_between G4 "A" "D" l ∧ path_weight_sum G4 l = d) ∧
        ∀ l, is_path_between G4 "A" "D" l → d ≤ path_weight_sum G4 l) :=
  get_shortest_distance_spec G4 "A" "D" (by decide) (by decide)

end FloorNav